import Mathlib

/-!
# Verification of the MLM microkernel core (`mlm-core.js`)

A shallow embedding of the unit-loading microkernel: JavaScript objects are
association lists with JS insertion-order update semantics, user-supplied
functions (factories, hooks, loaders, injectors, producers) are modelled as
values carrying an identifier and a call outcome, the mutable `MLM` instance
becomes an explicit state record threaded through the operations, and thrown
exceptions become an `Option Err` result component.  Recursion over the
dependency graph is made total with an explicit fuel parameter.
-/

namespace MLM

/-- Errors thrown by the core or by user code, kept structured so that the
"propagates unchanged" claims are equalities of `Err` values. -/
inductive Err where
  | fuelOut
  | busy
  | notStarted
  | reentrant (name : String)
  | importFailed (name path msg : String)
  | factoryNotFunction (name : String)
  | factoryRetNotObject (name : String)
  | shapeBad (name field : String)
  | missingTag (unit tag : String)
  | invalidTag (tag : String)
  | duplicateTag (tag owner : String)
  | duplicateContextKey (key : String)
  | defineBadSpec (key : String)
  | dupInjector (key : String)
  | notCallable
  | thrown (msg : String)
  | analyzeFailed (unit : String) (inner : Err)
  | analyzeMissingTag (tag unit : String)
  deriving DecidableEq, Repr

/-- A JavaScript value as far as the core inspects it.  A function value
carries an identifier (used in the event trace) and its call outcome:
calling it either throws an `Err` or returns a `CVal` (awaiting folded in). -/
inductive CVal where
  | undefined
  | null
  | bool (b : Bool)
  | num (n : Int)
  | str (s : String)
  | fn (id : Nat) (beh : Except Err CVal)
  | obj (fields : List (String × CVal))

/-- JS truthiness. -/
def truthy : CVal → Bool
  | .undefined => false
  | .null => false
  | .bool b => b
  | .num n => n != 0
  | .str s => s ≠ ""
  | .fn _ _ => true
  | .obj _ => true

/-- `undot.js`: only plain objects are descended into. -/
def isPlainVal : CVal → Bool
  | .obj _ => true
  | _ => false

def CVal.isStr : CVal → Bool
  | .str _ => true
  | _ => false

/-- Association lists with JavaScript object semantics: `set` on an existing
key replaces the value in place (keeping position), a new key is appended. -/
abbrev Table (α : Type) : Type := List (String × α)

def Table.get? {α} : Table α → String → Option α
  | [], _ => none
  | (k', v) :: rest, k => if k' = k then some v else Table.get? rest k

def Table.set {α} : Table α → String → α → Table α
  | [], k, v => [(k, v)]
  | (k', v') :: rest, k, v =>
      if k' = k then (k, v) :: rest else (k', v') :: Table.set rest k v

def Table.hasKey {α} (t : Table α) (k : String) : Bool :=
  (Table.get? t k).isSome

def Table.keys {α} : Table α → List String
  | [] => []
  | (k, _) :: rest => k :: Table.keys rest

/-- One configuration object / layer: a JS object, as a field table. -/
abbrev Layer : Type := Table CVal

/-- `String.split` on the single character `'.'` (JS `k.split('.')`),
written structurally over the character list so it computes by reduction. -/
def splitDotsAux : List Char → List Char → List String
  | [], acc => [String.mk acc.reverse]
  | c :: cs, acc =>
      if c = '.' then String.mk acc.reverse :: splitDotsAux cs []
      else splitDotsAux cs (c :: acc)

def splitDots (s : String) : List String :=
  splitDotsAux s.data []

/-- JS `s.startsWith('#')`. -/
def startsHash (s : String) : Bool :=
  match s.data with
  | '#' :: _ => true
  | _ => false

/-- `undot.js`: walk a dotted path, creating (or overwriting non-plain
values with) intermediate objects, then set the final segment. -/
def setPath : Layer → List String → String → CVal → Layer
  | o, [], last, v => Table.set o last v
  | o, p :: ps, last, v =>
      let sub : Layer :=
        match Table.get? o p with
        | some (.obj fs) => fs
        | _ => []
      Table.set o p (.obj (setPath sub ps last v))

/-- `undot(obj)`: expand every dotted top-level key into a nested path.
`k.split('.')` never yields an empty list, so the `[]` branch is inert. -/
def undot (fields : Layer) : Layer :=
  fields.foldl
    (fun out kv =>
      match (splitDots kv.1).reverse with
      | [] => out
      | last :: revParts => setPath out revParts.reverse last kv.2)
    []

/-! ## Context store (`#context`, `#defineContextProperty`, `#addContextProperty`) -/

/-- The attributes of a published context property, as produced by
`Object.defineProperty`: absent attributes of a new property default to
`false` / absent. -/
structure PropDesc where
  enumerable : Bool := false
  configurable : Bool := false
  writable : Bool := false
  value : Option CVal := none
  getF : Option CVal := none
  setF : Option CVal := none

/-- Interpret a plain object as a JS property descriptor: recognized own
keys override, in object order; everything else is ignored. -/
def applyDescFields (base : PropDesc) (fields : List (String × CVal)) : PropDesc :=
  fields.foldl
    (fun d kv =>
      if kv.1 = "value" then { d with value := some kv.2 }
      else if kv.1 = "get" then { d with getF := some kv.2 }
      else if kv.1 = "set" then { d with setF := some kv.2 }
      else if kv.1 = "writable" then { d with writable := truthy kv.2 }
      else if kv.1 = "enumerable" then { d with enumerable := truthy kv.2 }
      else if kv.1 = "configurable" then { d with configurable := truthy kv.2 }
      else d)
    base

/-- The descriptor defaults the core always supplies:
`{ enumerable: true, configurable: false, ...descriptor }`. -/
def baseDesc : PropDesc := { enumerable := true, configurable := false }

/-- Reading a published property: an accessor property invokes its getter,
a data property yields its value (`undefined` when absent). -/
def readDesc (d : PropDesc) : Except Err CVal :=
  if d.getF.isSome || d.setF.isSome then
    match d.getF with
    | some (.fn _ beh) => beh
    | some _ => .error .notCallable
    | none => .ok .undefined
  else .ok (d.value.getD .undefined)

/-- Whether plain assignment to the published property can succeed. -/
def canAssign (d : PropDesc) : Bool :=
  if d.getF.isSome || d.setF.isSome then d.setF.isSome else d.writable

/-! ## Module resolution and import (`#importUnitWithInfo`, `#createInfo`) -/

/-- What the external importer returns for a resolved locator. -/
structure ModuleDef where
  /-- `module.default`, the unit factory slot (may be any JS value). -/
  defaultExport : CVal
  /-- whether `module.info` is a plain object. -/
  hasInfo : Bool
  /-- `info.requires ?? []`. -/
  requires : List String := []
  /-- `info.provides ?? []`. -/
  provides : List String := []

/-- Outcome of `resolveModule` followed by `importModule` for one name. -/
inductive ResolveOut where
  | resolveErr (e : Err)
  | importErr (path : String) (msg : String)
  | found (path : String) (m : ModuleDef)

/-- The host environment: the two injected functions, as a mapping from
unit name to resolution/import outcome. -/
abbrev Repo : Type := String → ResolveOut

/-- The information `#importUnitWithInfo` hands back to the installer. -/
structure Imported where
  path : String
  defaultExport : CVal
  requires : List String
  provides : List String

/-- `#importUnitWithInfo`: resolver errors propagate unwrapped (the resolve
happens before the `try`); importer errors and the missing-`info` assert are
caught and rethrown wrapped with the unit name and locator. -/
def importUnitWithInfo (repo : Repo) (name : String) : Except Err Imported :=
  match repo name with
  | .resolveErr e => .error e
  | .importErr path msg => .error (.importFailed name path msg)
  | .found path m =>
      if m.hasInfo then
        .ok ⟨path, m.defaultExport, m.requires, m.provides⟩
      else
        .error (.importFailed name path
          ("No export info found for unit " ++ name ++ " at " ++ path))

/-! ## Installer state -/

/-- A registered pipeline processor: the `define` loader installed by the
constructor, or a unit-contributed `register` entry. -/
inductive LoaderV where
  | builtinDefine
  | user (v : CVal)

/-- Observable events: factory invocations, lifecycle-hook invocations, and
pipeline-processor invocations (pipeline name, index in the registration
list, unit being installed). -/
inductive Ev where
  | factoryCall (name : String)
  | hookRun (id : Nat)
  | procRun (pipeline : String) (idx : Nat) (unit : String)
  deriving DecidableEq, Repr

/-- The lifecycle controller state (`#state`). -/
inductive Phase where
  | idle | installing | starting | started | stopping | shutdown | stopped
  deriving DecidableEq, Repr

/-- An installed unit record: `undot(unitConfig)` with the frozen `name`
property, plus the metadata the installer reads back from `unit.info`. -/
structure UnitRec where
  fields : Layer
  requires : List String
  provides : List String

/-- `this.units[tag]?.name` (always the frozen string in practice). -/
def UnitRec.recName (u : UnitRec) : String :=
  match Table.get? u.fields "name" with
  | some (.str s) => s
  | _ => "undefined"

/-- The whole mutable state of one `MLM` instance.  The `loaders` registry
starts with the built-in `define` loader registered by the constructor. -/
structure MState where
  units : Table UnitRec := []
  ctx : Table PropDesc := []
  loaders : Table (List LoaderV) := [("define", [LoaderV.builtinDefine])]
  injectors : Table CVal := []
  onStart : List CVal := []
  onStop : List CVal := []
  onShutdown : List CVal := []
  installing : List String := []
  phase : Phase := .idle
  trace : List Ev := []

/-! ## Context publishing -/

/-- `#defineContextProperty(name, descriptor)`: duplicate-key assert, then
`Object.defineProperty(this.#context, name, {enumerable: true,
configurable: false, ...descriptor})`. -/
def defineContextProperty (name : String) (d : PropDesc) (st : MState) :
    MState × Option Err :=
  if Table.hasKey st.ctx name then (st, some (.duplicateContextKey name))
  else ({ st with ctx := Table.set st.ctx name d }, none)

/-- `#addContextProperty(name, value)`: duplicate-key assert; a function is
invoked (awaited) and published behind a getter returning its result; an
object is used as the property descriptor; anything else throws. -/
def addContextProperty (name : String) (v : CVal) (st : MState) :
    MState × Option Err :=
  if Table.hasKey st.ctx name then (st, some (.duplicateContextKey name))
  else
    match v with
    | .fn id beh =>
        match beh with
        | .error e => (st, some e)
        | .ok rv =>
            defineContextProperty name { baseDesc with getF := some (.fn id (.ok rv)) } st
    | .obj fs => defineContextProperty name (applyDescFields baseDesc fs) st
    | _ =>
        (st, some (.thrown ("Invalid value for context property '" ++ name ++
          " - should be caught before reaching here'.")))

/-- Reading `this.context[k]` afterwards. -/
def readCtxKey (st : MState) (k : String) : Except Err CVal :=
  match Table.get? st.ctx k with
  | some d => readDesc d
  | none => .ok .undefined

/-- The body of the built-in `define` loader registered by the constructor:
for each entry, assert `function|plainObject`, then publish it. -/
def runDefineLoader (conf : CVal) (st : MState) : MState × Option Err :=
  let entries : Layer := match conf with | .obj fs => fs | _ => []
  go entries st
where
  go : Layer → MState → MState × Option Err
    | [], st => (st, none)
    | (k, spec) :: rest, st =>
        match spec with
        | .fn _ _ =>
            match addContextProperty k spec st with
            | (st', none) => go rest st'
            | r => r
        | .obj _ =>
            match addContextProperty k spec st with
            | (st', none) => go rest st'
            | r => r
        | _ => (st, some (.defineBadSpec k))

/-! ## Unit-config shape validation (`ctx.assert.is({...}, unit, 'Unit config')`) -/

/-- `'function|none'`. -/
def fieldOkFn : Option CVal → Bool
  | none => true
  | some .undefined => true
  | some .null => true
  | some (.fn _ _) => true
  | some _ => false

/-- `'plainObject|none'`. -/
def fieldOkObj : Option CVal → Bool
  | none => true
  | some .undefined => true
  | some .null => true
  | some (.obj _) => true
  | some _ => false

/-- The allowed-field schema checked against the unit config, in schema
order; yields the first offending field. -/
def validateShape (fields : Layer) : Option String :=
  if !fieldOkFn (Table.get? fields "onBeforeLoad") then some "onBeforeLoad"
  else if !fieldOkFn (Table.get? fields "onPrepare") then some "onPrepare"
  else if !fieldOkObj (Table.get? fields "define") then some "define"
  else if !fieldOkObj (Table.get? fields "inject") then some "inject"
  else if !fieldOkObj (Table.get? fields "register") then some "register"
  else if !fieldOkFn (Table.get? fields "onReady") then some "onReady"
  else if !fieldOkFn (Table.get? fields "onStart") then some "onStart"
  else if !fieldOkFn (Table.get? fields "onStop") then some "onStop"
  else if !fieldOkFn (Table.get? fields "onShutdown") then some "onShutdown"
  else none

/-! ## Install-phase helper loops -/

/-- `await unit.<key>?.()`: skip nullish, call a function, anything else is a
`TypeError` (unreachable for the validated root config). -/
def runOptHook (fields : Layer) (key : String) (st : MState) :
    MState × Option Err :=
  match Table.get? fields key with
  | none => (st, none)
  | some .undefined => (st, none)
  | some .null => (st, none)
  | some (.fn id beh) =>
      let st' := { st with trace := st.trace ++ [.hookRun id] }
      match beh with
      | .ok _ => (st', none)
      | .error e => (st', some e)
  | some _ => (st, some .notCallable)

/-- The `provides` loop: validate tag syntax, fail on an owned tag (naming
the existing owner), then record ownership of the same unit record. -/
def tagValid (tag : String) : Bool :=
  match tag.data with
  | '#' :: rest =>
      !rest.isEmpty && rest.all (fun c => c.isAlphanum || c = '_' || c = '-')
  | _ => false

def tagsLoop (u : UnitRec) : List String → MState → MState × Option Err
  | [], st => (st, none)
  | t :: ts, st =>
      if !tagValid t then (st, some (.invalidTag t))
      else
        match Table.get? st.units t with
        | some owner => (st, some (.duplicateTag t owner.recName))
        | none => tagsLoop u ts { st with units := Table.set st.units t u }

/-- Register this unit's `inject` entries, failing on a duplicate key. -/
def injectRegLoop : List (String × CVal) → MState → MState × Option Err
  | [], st => (st, none)
  | (k, v) :: rest, st =>
      if Table.hasKey st.injectors k then (st, some (.dupInjector k))
      else injectRegLoop rest { st with injectors := Table.set st.injectors k v }

/-- Run every registered injector whose key names a truthy top-level field
of the unit; a truthy result is `undot`-expanded and pushed as a layer. -/
def injectRunLoop (unitFields : Layer) :
    List (String × CVal) → List Layer → MState →
    (MState × Except Err (List Layer))
  | [], layers, st => (st, .ok layers)
  | (k, injFn) :: rest, layers, st =>
      match Table.get? unitFields k with
      | some conf =>
          if truthy conf then
            match injFn with
            | .fn _ beh =>
                match beh with
                | .error e => (st, .error e)
                | .ok v =>
                    if truthy v then
                      let lf : Layer := match v with | .obj fs => fs | _ => []
                      injectRunLoop unitFields rest (layers ++ [undot lf]) st
                    else injectRunLoop unitFields rest layers st
            | _ => (st, .error .notCallable)
          else injectRunLoop unitFields rest layers st
      | none => injectRunLoop unitFields rest layers st

/-- `#addLoader(name, loader)`. -/
def addLoader (name : String) (l : LoaderV) (st : MState) : MState :=
  match Table.get? st.loaders name with
  | some ls => { st with loaders := Table.set st.loaders name (ls ++ [l]) }
  | none => { st with loaders := Table.set st.loaders name [l] }

/-- Register every layer's `register` entries into the pipeline registry. -/
def registerLoop : List Layer → MState → MState
  | [], st => st
  | conf :: rest, st =>
      let regs : Layer :=
        match Table.get? conf "register" with | some (.obj fs) => fs | _ => []
      registerLoop rest (regs.foldl (fun s kv => addLoader kv.1 (.user kv.2) s) st)

/-- Run one registration list against one fragment, in registration order,
emitting a `procRun` event per invocation. -/
def runLoaderList (pipe : String) (uname : String) (frag : CVal) :
    List LoaderV → Nat → MState → MState × Option Err
  | [], _, st => (st, none)
  | l :: ls, i, st =>
      let st := { st with trace := st.trace ++ [.procRun pipe i uname] }
      match l with
      | .builtinDefine =>
          match runDefineLoader frag st with
          | (st', none) => runLoaderList pipe uname frag ls (i + 1) st'
          | r => r
      | .user v =>
          match v with
          | .fn _ beh =>
              match beh with
              | .ok _ => runLoaderList pipe uname frag ls (i + 1) st
              | .error e => (st, some e)
          | _ => (st, some .notCallable)

/-- For one pipeline name: every layer carrying a truthy fragment under it
is run through the registration list. -/
def runPipeOnLayers (pipe : String) (uname : String) (lds : List LoaderV) :
    List Layer → MState → MState × Option Err
  | [], st => (st, none)
  | conf :: rest, st =>
      match Table.get? conf pipe with
      | some frag =>
          if truthy frag then
            match runLoaderList pipe uname frag lds 0 st with
            | (st', none) => runPipeOnLayers pipe uname lds rest st'
            | r => r
          else runPipeOnLayers pipe uname lds rest st
      | none => runPipeOnLayers pipe uname lds rest st

/-- `for (const key in this.#registeredLoaders) { for (const conf of layers)
{ ... } }`, over a snapshot of the registry. -/
def processPipelines (uname : String) (layers : List Layer) :
    Table (List LoaderV) → MState → MState × Option Err
  | [], st => (st, none)
  | (pipe, lds) :: rest, st =>
      match runPipeOnLayers pipe uname lds layers st with
      | (st', none) => processPipelines uname layers rest st'
      | r => r

/-- `onReady` for every layer (only invoked when truthy). -/
def onReadyLoop : List Layer → MState → MState × Option Err
  | [], st => (st, none)
  | conf :: rest, st =>
      match Table.get? conf "onReady" with
      | some v =>
          if truthy v then
            match v with
            | .fn id beh =>
                let st := { st with trace := st.trace ++ [.hookRun id] }
                match beh with
                | .ok _ => onReadyLoop rest st
                | .error e => (st, some e)
            | _ => (st, some .notCallable)
          else onReadyLoop rest st
      | none => onReadyLoop rest st

/-- The truthy hook of a layer under `key` (`.map(...).filter(Boolean)`). -/
def layerHook (key : String) (conf : Layer) : Option CVal :=
  match Table.get? conf key with
  | some v => if truthy v then some v else none
  | none => none

/-- Queue collection at the end of a successful install:
`onStart`/`onStop` appended at the tail, `onShutdown` prepended. -/
def registerHooks (layers : List Layer) (st : MState) : MState :=
  { st with
    onStart := st.onStart ++ layers.filterMap (layerHook "onStart")
    onStop := st.onStop ++ layers.filterMap (layerHook "onStop")
    onShutdown := layers.filterMap (layerHook "onShutdown") ++ st.onShutdown }

/-! ## The install recursion (`#install`)

The recursive call is abstracted as a `recur` argument so that the fueled
recursion is structural on the fuel; `installGo` ties the knot. -/

/-- The dependency loop: an installed entry (unit or tag) short-circuits; an
unsatisfied `#tag` is a missing-feature error; otherwise recurse. -/
def installDeps (recur : String → MState → MState × Option Err)
    (parent : String) : List String → MState → MState × Option Err
  | [], st => (st, none)
  | d :: ds, st =>
      if (Table.get? st.units d).isSome then installDeps recur parent ds st
      else if startsHash d then (st, some (.missingTag parent d))
      else
        match recur d st with
        | (st', none) => installDeps recur parent ds st'
        | r => r

/-- Sequence a fallible step with a continuation: errors short-circuit,
exactly as a thrown exception leaves the rest of the `try` block unrun. -/
def andThen (r : MState × Option Err) (f : MState → MState × Option Err) :
    MState × Option Err :=
  match r with
  | (st, none) => f st
  | r => r

/-- `ctx.assert.is('function|none', unitFactory)` followed by
`unitFactory ? await unitFactory(ctx) : {}` and
`ctx.assert.is.object(unitConfig, ...)`. -/
def runFactory (name : String) (defv : CVal) (st : MState) :
    MState × Except Err Layer :=
  match defv with
  | .undefined => (st, .ok [])
  | .null => (st, .ok [])
  | .fn _ beh =>
      let st' := { st with trace := st.trace ++ [.factoryCall name] }
      match beh with
      | .error e => (st', .error e)
      | .ok v =>
          match v with
          | .obj fs => (st', .ok fs)
          | _ => (st', .error (.factoryRetNotObject name))
  | _ => (st, .error (.factoryNotFunction name))

/-- `unit.inject`, as iterated by the injector-registration loop. -/
def injFields (fields : Layer) : Layer :=
  match Table.get? fields "inject" with
  | some (.obj fs) => fs
  | _ => []

/-- The body of `#install` between the reentrancy bookkeeping: import,
factory, early table registration, validation, hooks, dependencies, tags,
injectors, pipeline registration and processing, and queue collection. -/
def installStep (repo : Repo) (recur : String → MState → MState × Option Err)
    (name : String) (st : MState) : MState × Option Err :=
  match importUnitWithInfo repo name with
  | .error e => (st, some e)
  | .ok im =>
      match runFactory name im.defaultExport st with
      | (st, .error e) => (st, some e)
      | (st, .ok raw) =>
          -- this.units[name] = undot(unitConfig); unit.info = info;
          -- Object.defineProperty(unit, 'name', { value: name, ... })
          let fields := Table.set (undot raw) "name" (.str name)
          let u : UnitRec := ⟨fields, im.requires, im.provides⟩
          let st := { st with units := Table.set st.units name u }
          match validateShape fields with
          | some f => (st, some (.shapeBad name f))
          | none =>
              andThen (runOptHook fields "onBeforeLoad" st) fun st =>
              andThen (installDeps recur name im.requires st) fun st =>
              andThen (tagsLoop u im.provides st) fun st =>
              andThen (runOptHook fields "onPrepare" st) fun st =>
              andThen (injectRegLoop (injFields fields) st) fun st =>
              match injectRunLoop fields st.injectors [fields] st with
              | (st, .error e) => (st, some e)
              | (st, .ok layers) =>
                  let st := registerLoop layers st
                  andThen (processPipelines name layers st.loaders st) fun st =>
                  andThen (onReadyLoop layers st) fun st =>
                  (registerHooks layers st, none)

/-- `#install(name)`: the no-op short-circuit for an installed name, the
reentrancy guard, and the `finally` clearing of the marker. -/
def installGo (repo : Repo) : Nat → String → MState → MState × Option Err
  | 0, _, st => (st, some .fuelOut)
  | fuel + 1, name, st =>
      if (Table.get? st.units name).isSome then (st, none)
      else if name ∈ st.installing then (st, some (.reentrant name))
      else
        let st1 := { st with installing := name :: st.installing }
        match installStep repo (installGo repo fuel) name st1 with
        | (st2, res) => ({ st2 with installing := st2.installing.erase name }, res)

/-! ## Public lifecycle operations -/

/-- `install(name)`: state-machine gate, no error-path reset. -/
def install (repo : Repo) (fuel : Nat) (name : String) (st : MState) :
    MState × Option Err :=
  if st.phase = .idle then
    match installGo repo fuel name { st with phase := .installing } with
    | (st', none) => ({ st' with phase := .idle }, none)
    | r => r
  else (st, some .busy)

/-- Run a queue of collected callbacks in order, stopping at the first
thrown error. -/
def drainHooks : List CVal → MState → MState × Option Err
  | [], st => (st, none)
  | h :: hs, st =>
      match h with
      | .fn id beh =>
          let st := { st with trace := st.trace ++ [.hookRun id] }
          match beh with
          | .ok _ => drainHooks hs st
          | .error e => (st, some e)
      | _ => (st, some .notCallable)

/-- `start(config)`: drain the start queue. -/
def start (st : MState) : MState × Option Err :=
  if st.phase = .idle then
    match drainHooks st.onStart { st with phase := .starting } with
    | (st', none) => ({ st' with phase := .started }, none)
    | r => r
  else (st, some .busy)

/-- `stop()`: drain the stop queue in append order, then the shutdown queue
(which was built by prepending, hence reverse install order). -/
def stop (st : MState) : MState × Option Err :=
  if st.phase = .started then
    match drainHooks st.onStop { st with phase := .stopping } with
    | (st', none) =>
        match drainHooks st'.onShutdown { st' with phase := .shutdown } with
        | (st'', none) => ({ st'' with phase := .stopped }, none)
        | r => r
    | r => r
  else (st, some .notStarted)

/-- A public API call, for stating what a wedged instance still accepts. -/
inductive Op where
  | installOp (name : String)
  | startOp
  | stopOp

def runOp (repo : Repo) (fuel : Nat) : Op → MState → MState × Option Err
  | .installOp name, st => install repo fuel name st
  | .startOp, st => start st
  | .stopOp, st => stop st

def runOps (repo : Repo) (fuel : Nat) (ops : List Op) (st : MState) : MState :=
  ops.foldl (fun s op => (runOp repo fuel op s).1) st

/-! ## Dependency analyzer (`analyze`) -/

/-- One entry of `result.units`. -/
structure ARec where
  name : String
  path : String
  requires : List String
  provides : List String
  deriving DecidableEq, Repr

/-- `{ units, tags, errors, order, success }`. -/
structure AResult where
  units : List ARec := []
  tags : Table String := []
  errors : List Err := []
  order : List String := []
  success : Bool := true

/-- The analyzer's local traversal state: the accumulator plus the
`visited` and `installing` sets. -/
structure AState where
  res : AResult := {}
  visited : List String := []
  busy : List String := []

/-- `result.errors.push(...); result.success = false;` -/
def pushAErr (e : Err) (r : AResult) : AResult :=
  { r with errors := r.errors ++ [e], success := false }

/-- The `requires` loop of `analyzeUnit`: a missing tag is recorded as an
error, a concrete dependency is recursed into. -/
def analyzeDeps (recur : String → AState → AState) (parent : String) :
    List String → AState → AState
  | [], a => a
  | d :: ds, a =>
      if startsHash d then
        if Table.hasKey a.res.tags d then analyzeDeps recur parent ds a
        else analyzeDeps recur parent ds
          { a with res := pushAErr (.analyzeMissingTag d parent) a.res }
      else if d ∈ a.visited then analyzeDeps recur parent ds a
      else analyzeDeps recur parent ds (recur d a)

/-- `analyzeUnit`: visited/installing short-circuits; an import failure is
recorded instead of thrown; otherwise deps are walked, then the unit is
appended to `units`/`order`, its tags recorded, and it is marked visited.
The `finally` clears the installing marker on both paths. -/
def analyzeGo (repo : Repo) : Nat → String → AState → AState
  | 0, _, a => a
  | fuel + 1, u, a =>
      if u ∈ a.visited then a
      else if u ∈ a.busy then a
      else
        let a := { a with busy := u :: a.busy }
        let a' :=
          match importUnitWithInfo repo u with
          | .error e => { a with res := pushAErr (.analyzeFailed u e) a.res }
          | .ok im =>
              let a := analyzeDeps (analyzeGo repo fuel) u im.requires a
              let r := a.res
              let r := { r with
                units := r.units ++ [ARec.mk u im.path im.requires im.provides],
                order := r.order ++ [u] }
              let r := { r with
                tags := im.provides.foldl (fun t tg => Table.set t tg u) r.tags }
              { a with res := r, visited := u :: a.visited }
        { a' with busy := a'.busy.erase u }

/-- `analyze(name)`: touches none of the instance's mutable state. -/
def analyze (repo : Repo) (fuel : Nat) (name : String) (st : MState) :
    AResult × MState :=
  ((analyzeGo repo fuel name {}).res, st)

/-! ## Basic table lemmas -/

theorem Table.get_set_self {α} (t : Table α) (k : String) (v : α) :
    Table.get? (Table.set t k v) k = some v := by
  induction t with
  | nil => simp [Table.set, Table.get?]
  | cons hd tl ih =>
      by_cases h : hd.1 = k
      · simp [Table.set, h, Table.get?]
      · simp [Table.set, h, Table.get?, ih]

theorem Table.get_set_ne {α} (t : Table α) (k k' : String) (v : α) (h : k ≠ k') :
    Table.get? (Table.set t k v) k' = Table.get? t k' := by
  induction t with
  | nil => simp [Table.set, Table.get?, h]
  | cons hd tl ih =>
      by_cases hk : hd.1 = k
      · simp [Table.set, hk, Table.get?, h]
      · simp [Table.set, hk, Table.get?, ih]

theorem Table.hasKey_set_mono {α} (t : Table α) (k k' : String) (v : α)
    (h : Table.hasKey t k' = true) : Table.hasKey (Table.set t k v) k' = true := by
  by_cases hk : k = k'
  · subst hk; simp [Table.hasKey, Table.get_set_self]
  · simpa [Table.hasKey, Table.get_set_ne t k k' v hk] using h

/-! ## C7: dotted-key expansion -/

/-- C7: a dotted top-level key `'a.b.c': v` produces, through `undot`,
exactly the same unit record as declaring the nested object
`{ a: { b: { c: v } } }` (and the installer applies `undot` to every unit
configuration before registering it); and when a path segment collides with
a non-plain-object value, that value is overwritten by a fresh object,
silently shadowing it. -/
theorem claim_C7 :
    (∀ v : CVal,
      undot [("a.b.c", v)] = undot [("a", .obj [("b", .obj [("c", v)])])])
    ∧ (∀ w v : CVal, isPlainVal w = false →
      undot [("a", w), ("a.b", v)] = [("a", .obj [("b", v)])]) := by
  constructor
  · intro v; rfl
  · intro w v h
    cases w <;> simp [isPlainVal] at h <;> rfl

/-- C7 witness: the shadowing clause at the concrete input `{'a': 1,
'a.b': 5}`. -/
theorem claim_C7_witness :
    isPlainVal (.num 1) = false
    ∧ undot [("a", .num 1), ("a.b", .num 5)] = [("a", .obj [("b", .num 5)])] :=
  ⟨rfl, claim_C7.2 (.num 1) (.num 5) rfl⟩

/-! ## C2: context publishing -/

/-- C2 (amended): publishing a context entry whose declared value is a
function invokes it with no arguments, awaits it, and publishes the result
behind a getter, so reading the key yields exactly that result; the
property is enumerable and not assignable.  A non-function declared value
(necessarily a plain object, by the `define` loader's assert) is *not*
published as-is: it is interpreted as a property descriptor spread over
`{enumerable: true, configurable: false}`, so reading the key yields the
descriptor's `value` field (or its getter's result), not the object
itself. -/
theorem claim_C2 :
    (∀ (st : MState) (k : String) (id : Nat) (v : CVal),
      Table.hasKey st.ctx k = false →
      (∃ ctx',
        ctx' = Table.set st.ctx k ({ baseDesc with getF := some (.fn id (.ok v)) })
        ∧ addContextProperty k (.fn id (.ok v)) st = ({ st with ctx := ctx' }, none))
      ∧ readCtxKey (addContextProperty k (.fn id (.ok v)) st).1 k = .ok v
      ∧ (∀ d, Table.get? (addContextProperty k (.fn id (.ok v)) st).1.ctx k = some d →
          d.enumerable = true ∧ canAssign d = false))
    ∧ (∀ (st : MState) (k : String) (fs : List (String × CVal)),
      Table.hasKey st.ctx k = false →
      addContextProperty k (.obj fs) st =
        ({ st with ctx := Table.set st.ctx k (applyDescFields baseDesc fs) }, none))
    ∧ (∀ (st : MState) (k : String) (w : CVal),
      Table.hasKey st.ctx k = false →
      readCtxKey (addContextProperty k (.obj [("value", w)]) st).1 k = .ok w
      ∧ (∀ d, Table.get? (addContextProperty k (.obj [("value", w)]) st).1.ctx k = some d →
          d.enumerable = true ∧ canAssign d = false)) := by
  refine ⟨?_, ?_, ?_⟩
  · intro st k id v h
    refine ⟨?_, ?_, ?_⟩
    · exact ⟨_, rfl, by simp [addContextProperty, h, defineContextProperty]⟩
    · simp [addContextProperty, h, defineContextProperty, readCtxKey,
        Table.get_set_self, readDesc]
    · intro d hd
      simp [addContextProperty, h, defineContextProperty, Table.get_set_self] at hd
      subst hd
      simp [canAssign, baseDesc]
  · intro st k fs h
    simp [addContextProperty, h, defineContextProperty]
  · intro st k w h
    constructor
    · simp [addContextProperty, h, defineContextProperty, readCtxKey,
        Table.get_set_self, readDesc, applyDescFields, baseDesc]
    · intro d hd
      simp [addContextProperty, h, defineContextProperty, Table.get_set_self] at hd
      subst hd
      simp [canAssign, applyDescFields, baseDesc]

/-- C2 witness: publishing a producer function and a `{value: 'data'}`
descriptor into an empty context. -/
theorem claim_C2_witness :
    (Table.hasKey ({} : MState).ctx "k" = false
    ∧ readCtxKey (addContextProperty "k" (.fn 3 (.ok (.str "val"))) {}).1 "k"
        = .ok (.str "val"))
    ∧ (Table.hasKey ({} : MState).ctx "v" = false
    ∧ readCtxKey (addContextProperty "v" (.obj [("value", .str "data")]) {}).1 "v"
        = .ok (.str "data")) :=
  ⟨⟨rfl, (claim_C2.1 {} "k" 3 (.str "val") rfl).2.1⟩,
   ⟨rfl, (claim_C2.2.2 {} "v" (.str "data") rfl).1⟩⟩

/-- C2 counterexample: the claim says a non-function declared value is
published as-is, i.e. reading the key yields exactly the declared value.
For the declared value `{value: 'data'}` (the README's own example),
publication succeeds but reading the key yields the string `'data'`, which
is not the declared object. -/
theorem claim_C2_cex :
    (addContextProperty "k" (.obj [("value", .str "data")]) {}).2 = none
    ∧ readCtxKey (addContextProperty "k" (.obj [("value", .str "data")]) {}).1 "k"
        = .ok (.str "data")
    ∧ CVal.str "data" ≠ CVal.obj [("value", .str "data")] :=
  ⟨rfl, rfl, fun h => CVal.noConfusion h⟩

/-! ## C8: the analyzer is non-mutating and `success ↔ no errors` -/

/-- The analyzer invariant: `success` is true exactly when no error has
been accumulated. -/
def AOk (a : AState) : Prop := a.res.success = true ↔ a.res.errors = []

theorem pushAErr_not_ok (e : Err) (r : AResult) :
    (pushAErr e r).success = false ∧ (pushAErr e r).errors ≠ [] := by
  simp [pushAErr]

theorem analyzeDeps_aok (recur : String → AState → AState)
    (hrec : ∀ u a, AOk a → AOk (recur u a)) (parent : String)
    (ds : List String) (a : AState) (h : AOk a) :
    AOk (analyzeDeps recur parent ds a) := by
  induction ds generalizing a with
  | nil => simpa [analyzeDeps] using h
  | cons d ds ih =>
      simp only [analyzeDeps]
      by_cases hh : startsHash d = true
      · simp only [hh, if_true]
        by_cases ht : Table.hasKey a.res.tags d = true
        · simp only [ht, if_true]; exact ih a h
        · simp only [ht, if_false]
          exact ih _ (by simp [AOk, pushAErr])
      · simp only [hh, if_false]
        by_cases hv : d ∈ a.visited
        · simp only [hv, if_true]; exact ih a h
        · simp only [hv, if_false]; exact ih _ (hrec d a h)

theorem analyzeGo_aok (repo : Repo) (fuel : Nat) :
    ∀ (u : String) (a : AState), AOk a → AOk (analyzeGo repo fuel u a) := by
  induction fuel with
  | zero => intro u a h; simpa [analyzeGo] using h
  | succ n ih =>
      intro u a h
      by_cases hv : u ∈ a.visited
      · simpa [analyzeGo, hv] using h
      · by_cases hb : u ∈ a.busy
        · simpa [analyzeGo, hv, hb] using h
        · simp only [analyzeGo, hv, hb, if_false]
          cases him : importUnitWithInfo repo u with
          | error e => simp [him, AOk, pushAErr]
          | ok im =>
              simp only [him]
              have hdeps := analyzeDeps_aok (analyzeGo repo n) ih u im.requires
                { a with busy := u :: a.busy } h
              simpa [AOk] using hdeps

/-- C8: `analyze(name)` leaves the instance state (installed-unit table,
shared context, pipeline registry, lifecycle queues, controller state)
untouched, and in its result `success` is true exactly when the
accumulated error list is empty. -/
theorem claim_C8 (repo : Repo) (fuel : Nat) (name : String) (st : MState) :
    (analyze repo fuel name st).2 = st
    ∧ ((analyze repo fuel name st).1.success = true
        ↔ (analyze repo fuel name st).1.errors = []) := by
  refine ⟨rfl, ?_⟩
  exact analyzeGo_aok repo fuel name {} (by simp [AOk])

/-! ## Tame state extension

Every helper of the install loop leaves the controller phase and the
reentrancy marker untouched, appends (only non-factory) events to the
trace, and only ever adds entries to the unit table.  `installGo` itself
satisfies the weaker `ExtI` (it emits `factoryCall` events). -/

/-- `st'` extends `st` without factory events, phase or marker changes, or
unit-table removals. -/
def Ext (st st' : MState) : Prop :=
  st'.phase = st.phase ∧ st'.installing = st.installing
  ∧ (∃ t, st'.trace = st.trace ++ t ∧ ∀ m, Ev.factoryCall m ∉ t)
  ∧ (∀ m, Table.hasKey st.units m = true → Table.hasKey st'.units m = true)
  ∧ st.onStart.length ≤ st'.onStart.length

/-- `st'` extends `st` as a whole install does: factory events allowed. -/
def ExtI (st st' : MState) : Prop :=
  st'.phase = st.phase ∧ st'.installing = st.installing
  ∧ (∃ t, st'.trace = st.trace ++ t)
  ∧ (∀ m, Table.hasKey st.units m = true → Table.hasKey st'.units m = true)

theorem Ext_refl (st : MState) : Ext st st :=
  ⟨rfl, rfl, ⟨[], by simp, by simp⟩, fun _ h => h, le_refl _⟩

theorem Ext_trans {s1 s2 s3 : MState} (h1 : Ext s1 s2) (h2 : Ext s2 s3) :
    Ext s1 s3 := by
  obtain ⟨p1, i1, ⟨t1, ht1, hf1⟩, u1, l1⟩ := h1
  obtain ⟨p2, i2, ⟨t2, ht2, hf2⟩, u2, l2⟩ := h2
  refine ⟨p2.trans p1, i2.trans i1, ⟨t1 ++ t2, ?_, ?_⟩, fun m h => u2 m (u1 m h),
    le_trans l1 l2⟩
  · rw [ht2, ht1, List.append_assoc]
  · intro m; simp [hf1 m, hf2 m]

theorem Ext.toExtI {s1 s2 : MState} (h : Ext s1 s2) : ExtI s1 s2 := by
  obtain ⟨p, i, ⟨t, ht, _⟩, u, _⟩ := h
  exact ⟨p, i, ⟨t, ht⟩, u⟩

theorem ExtI_refl (st : MState) : ExtI st st :=
  ⟨rfl, rfl, ⟨[], by simp⟩, fun _ h => h⟩

theorem ExtI_trans {s1 s2 s3 : MState} (h1 : ExtI s1 s2) (h2 : ExtI s2 s3) :
    ExtI s1 s3 := by
  obtain ⟨p1, i1, ⟨t1, ht1⟩, u1⟩ := h1
  obtain ⟨p2, i2, ⟨t2, ht2⟩, u2⟩ := h2
  exact ⟨p2.trans p1, i2.trans i1, ⟨t1 ++ t2, by rw [ht2, ht1, List.append_assoc]⟩,
    fun m h => u2 m (u1 m h)⟩

/-- A trace-only extension: appending events touches nothing else. -/
theorem Ext.traceAppend (st : MState) (evs : List Ev)
    (h : ∀ m, Ev.factoryCall m ∉ evs) :
    Ext st { st with trace := st.trace ++ evs } :=
  ⟨rfl, rfl, ⟨evs, rfl, h⟩, fun _ h => h, le_refl _⟩

theorem defineContextProperty_ext (name : String) (d : PropDesc) (st : MState) :
    Ext st (defineContextProperty name d st).1 := by
  unfold defineContextProperty
  by_cases h : Table.hasKey st.ctx name <;> simp [h, Ext_refl]
  exact ⟨rfl, rfl, ⟨[], by simp, by simp⟩, fun _ h => h, le_refl _⟩

theorem addContextProperty_ext (name : String) (v : CVal) (st : MState) :
    Ext st (addContextProperty name v st).1 := by
  unfold addContextProperty
  by_cases h : Table.hasKey st.ctx name
  · simp [h, Ext_refl]
  · simp only [h, Bool.false_eq_true, if_false]
    cases v with
    | fn id beh =>
        cases beh with
        | error e => exact Ext_refl st
        | ok rv => exact defineContextProperty_ext _ _ _
    | obj fs => exact defineContextProperty_ext _ _ _
    | undefined => exact Ext_refl st
    | null => exact Ext_refl st
    | bool b => exact Ext_refl st
    | num n => exact Ext_refl st
    | str s => exact Ext_refl st

theorem runDefineLoader_go_ext (entries : Layer) (st : MState) :
    Ext st (runDefineLoader.go entries st).1 := by
  induction entries generalizing st with
  | nil => exact Ext_refl st
  | cons kv rest ih =>
      obtain ⟨k, spec⟩ := kv
      cases spec with
      | fn id beh =>
          simp only [runDefineLoader.go]
          cases hadd : addContextProperty k (.fn id beh) st with
          | mk st' res =>
              cases res with
              | none =>
                  have h1 : Ext st st' := by
                    have := addContextProperty_ext k (.fn id beh) st
                    rwa [hadd] at this
                  exact Ext_trans h1 (ih st')
              | some e =>
                  have := addContextProperty_ext k (.fn id beh) st
                  rwa [hadd] at this
      | obj fs =>
          simp only [runDefineLoader.go]
          cases hadd : addContextProperty k (.obj fs) st with
          | mk st' res =>
              cases res with
              | none =>
                  have h1 : Ext st st' := by
                    have := addContextProperty_ext k (.obj fs) st
                    rwa [hadd] at this
                  exact Ext_trans h1 (ih st')
              | some e =>
                  have := addContextProperty_ext k (.obj fs) st
                  rwa [hadd] at this
      | undefined => exact Ext_refl st
      | null => exact Ext_refl st
      | bool b => exact Ext_refl st
      | num n => exact Ext_refl st
      | str s => exact Ext_refl st

theorem runDefineLoader_ext (conf : CVal) (st : MState) :
    Ext st (runDefineLoader conf st).1 := by
  unfold runDefineLoader
  exact runDefineLoader_go_ext _ st

theorem runOptHook_ext (fields : Layer) (key : String) (st : MState) :
    Ext st (runOptHook fields key st).1 := by
  unfold runOptHook
  cases h : Table.get? fields key with
  | none => exact Ext_refl st
  | some v =>
      cases v with
      | fn id beh =>
          cases beh with
          | ok _ => exact Ext.traceAppend st [.hookRun id] (by simp)
          | error e => exact Ext.traceAppend st [.hookRun id] (by simp)
      | undefined => exact Ext_refl st
      | null => exact Ext_refl st
      | bool b => exact Ext_refl st
      | num n => exact Ext_refl st
      | str s => exact Ext_refl st
      | obj fs => exact Ext_refl st

theorem tagsLoop_ext (u : UnitRec) (ts : List String) (st : MState) :
    Ext st (tagsLoop u ts st).1 := by
  induction ts generalizing st with
  | nil => exact Ext_refl st
  | cons t ts ih =>
      simp only [tagsLoop]
      by_cases hv : tagValid t
      · simp only [hv, Bool.not_true, Bool.false_eq_true, if_false]
        cases ho : Table.get? st.units t with
        | some owner => exact Ext_refl st
        | none =>
            refine Ext_trans ?_ (ih _)
            exact ⟨rfl, rfl, ⟨[], by simp, by simp⟩,
              fun m h => Table.hasKey_set_mono st.units t m u h, le_refl _⟩
      · simp [hv, Ext_refl]

theorem injectRegLoop_ext (injs : Layer) (st : MState) :
    Ext st (injectRegLoop injs st).1 := by
  induction injs generalizing st with
  | nil => exact Ext_refl st
  | cons kv rest ih =>
      simp only [injectRegLoop]
      by_cases h : Table.hasKey st.injectors kv.1 = true
      · simp only [h, if_true]; exact Ext_refl st
      · simp only [h, if_false]
        refine Ext_trans ?_ (ih _)
        exact ⟨rfl, rfl, ⟨[], by simp, by simp⟩, fun _ h => h, le_refl _⟩

theorem injectRunLoop_state (uf : Layer) (injs : List (String × CVal))
    (layers : List Layer) (st : MState) :
    (injectRunLoop uf injs layers st).1 = st := by
  induction injs generalizing layers with
  | nil => rfl
  | cons kv rest ih =>
      simp only [injectRunLoop]
      cases h : Table.get? uf kv.1 with
      | none => exact ih layers
      | some conf =>
          by_cases hc : truthy conf = true
          · simp only [hc, if_true]
            cases kv.2 with
            | fn id beh =>
                cases beh with
                | error e => rfl
                | ok v =>
                    by_cases hv : truthy v = true
                    · simp only [hv, if_true]; exact ih _
                    · simp only [hv, if_false]; exact ih _
            | undefined => rfl
            | null => rfl
            | bool b => rfl
            | num n => rfl
            | str s => rfl
            | obj fs => rfl
          · simp only [hc, if_false]; exact ih layers

theorem addLoader_ext (name : String) (l : LoaderV) (st : MState) :
    Ext st (addLoader name l st) := by
  unfold addLoader
  cases Table.get? st.loaders name <;>
    exact ⟨rfl, rfl, ⟨[], by simp, by simp⟩, fun _ h => h, le_refl _⟩

theorem addLoader_fold_ext (regs : Layer) (st : MState) :
    Ext st (regs.foldl (fun s kv => addLoader kv.1 (.user kv.2) s) st) := by
  induction regs generalizing st with
  | nil => exact Ext_refl st
  | cons kv rest ih =>
      simp only [List.foldl_cons]
      exact Ext_trans (addLoader_ext kv.1 (.user kv.2) st) (ih _)

theorem registerLoop_ext (layers : List Layer) (st : MState) :
    Ext st (registerLoop layers st) := by
  induction layers generalizing st with
  | nil => exact Ext_refl st
  | cons conf rest ih =>
      simp only [registerLoop]
      exact Ext_trans (addLoader_fold_ext _ st) (ih _)

theorem runLoaderList_ext (pipe uname : String) (frag : CVal)
    (lds : List LoaderV) (i : Nat) (st : MState) :
    Ext st (runLoaderList pipe uname frag lds i st).1 := by
  induction lds generalizing i st with
  | nil => exact Ext_refl st
  | cons l ls ih =>
      simp only [runLoaderList]
      have hev : Ext st { st with trace := st.trace ++ [.procRun pipe i uname] } :=
        Ext.traceAppend st _ (by simp)
      cases l with
      | builtinDefine =>
          cases hd : runDefineLoader frag
              { st with trace := st.trace ++ [.procRun pipe i uname] } with
          | mk st' res =>
              have h2 : Ext st st' := by
                have := runDefineLoader_ext frag
                  { st with trace := st.trace ++ [.procRun pipe i uname] }
                rw [hd] at this
                exact Ext_trans hev this
              cases res with
              | none => exact Ext_trans h2 (ih _ _)
              | some e => exact h2
      | user v =>
          cases v with
          | fn id beh =>
              cases beh with
              | ok _ => exact Ext_trans hev (ih _ _)
              | error e => exact hev
          | undefined => exact hev
          | null => exact hev
          | bool b => exact hev
          | num n => exact hev
          | str s => exact hev
          | obj fs => exact hev

theorem runPipeOnLayers_ext (pipe uname : String) (lds : List LoaderV)
    (layers : List Layer) (st : MState) :
    Ext st (runPipeOnLayers pipe uname lds layers st).1 := by
  induction layers generalizing st with
  | nil => exact Ext_refl st
  | cons conf rest ih =>
      simp only [runPipeOnLayers]
      cases hf : Table.get? conf pipe with
      | none => exact ih st
      | some frag =>
          by_cases ht : truthy frag = true
          · simp only [ht, if_true]
            cases hr : runLoaderList pipe uname frag lds 0 st with
            | mk st' res =>
                have h1 : Ext st st' := by
                  have := runLoaderList_ext pipe uname frag lds 0 st
                  rwa [hr] at this
                cases res with
                | none => exact Ext_trans h1 (ih _)
                | some e => exact h1
          · simp only [ht, if_false]; exact ih st

theorem processPipelines_ext (uname : String) (layers : List Layer)
    (reg : Table (List LoaderV)) (st : MState) :
    Ext st (processPipelines uname layers reg st).1 := by
  induction reg generalizing st with
  | nil => exact Ext_refl st
  | cons e rest ih =>
      simp only [processPipelines]
      cases hr : runPipeOnLayers e.1 uname e.2 layers st with
      | mk st' res =>
          have h1 : Ext st st' := by
            have := runPipeOnLayers_ext e.1 uname e.2 layers st
            rwa [hr] at this
          cases res with
          | none => exact Ext_trans h1 (ih _)
          | some er => exact h1

theorem onReadyLoop_ext (layers : List Layer) (st : MState) :
    Ext st (onReadyLoop layers st).1 := by
  induction layers generalizing st with
  | nil => exact Ext_refl st
  | cons conf rest ih =>
      simp only [onReadyLoop]
      cases hf : Table.get? conf "onReady" with
      | none => exact ih st
      | some v =>
          by_cases ht : truthy v = true
          · simp only [ht, if_true]
            cases v with
            | fn id beh =>
                have hev : Ext st { st with trace := st.trace ++ [.hookRun id] } :=
                  Ext.traceAppend st _ (by simp)
                cases beh with
                | ok _ => exact Ext_trans hev (ih _)
                | error e => exact hev
            | undefined => exact Ext_refl st
            | null => exact Ext_refl st
            | bool b => exact Ext_refl st
            | num n => exact Ext_refl st
            | str s => exact Ext_refl st
            | obj fs => exact Ext_refl st
          · simp only [ht, if_false]; exact ih st

theorem registerHooks_ext (layers : List Layer) (st : MState) :
    Ext st (registerHooks layers st) := by
  unfold registerHooks
  exact ⟨rfl, rfl, ⟨[], by simp, by simp⟩, fun _ h => h, by simp⟩

/-- `ExtI` composes across `andThen`. -/
theorem andThen_extI {st : MState} {r : MState × Option Err}
    {f : MState → MState × Option Err} (h1 : ExtI st r.1)
    (h2 : ∀ s, ExtI s (f s).1) : ExtI st (andThen r f).1 := by
  obtain ⟨s, res⟩ := r
  cases res with
  | none => exact ExtI_trans h1 (h2 s)
  | some e => exact h1

theorem installDeps_extI (recur : String → MState → MState × Option Err)
    (hrec : ∀ nm st, ExtI st (recur nm st).1) (parent : String)
    (ds : List String) (st : MState) :
    ExtI st (installDeps recur parent ds st).1 := by
  induction ds generalizing st with
  | nil => exact ExtI_refl st
  | cons d ds ih =>
      simp only [installDeps]
      by_cases hin : (Table.get? st.units d).isSome = true
      · simp only [hin, if_true]; exact ih st
      · simp only [hin, if_false]
        by_cases hh : startsHash d = true
        · simp only [hh, if_true]; exact ExtI_refl st
        · simp only [hh, if_false]
          cases hr : recur d st with
          | mk st' res =>
              have h1 : ExtI st st' := by have := hrec d st; rwa [hr] at this
              cases res with
              | none => exact ExtI_trans h1 (ih _)
              | some e => exact h1

theorem runFactory_extI (name : String) (defv : CVal) (st : MState) :
    ExtI st (runFactory name defv st).1 := by
  unfold runFactory
  cases defv with
  | fn id beh =>
      cases beh with
      | error e => exact ⟨rfl, rfl, ⟨[.factoryCall name], rfl⟩, fun _ h => h⟩
      | ok v =>
          cases v <;> exact ⟨rfl, rfl, ⟨[.factoryCall name], rfl⟩, fun _ h => h⟩
  | undefined => exact ExtI_refl st
  | null => exact ExtI_refl st
  | bool b => exact ExtI_refl st
  | num n => exact ExtI_refl st
  | str s => exact ExtI_refl st
  | obj fs => exact ExtI_refl st

theorem installStep_extI (repo : Repo)
    (recur : String → MState → MState × Option Err)
    (hrec : ∀ nm st, ExtI st (recur nm st).1) (name : String) (st : MState) :
    ExtI st (installStep repo recur name st).1 := by
  unfold installStep
  cases importUnitWithInfo repo name with
  | error e => exact ExtI_refl st
  | ok im =>
      simp only
      cases hf : runFactory name im.defaultExport st with
      | mk stf fres =>
          have hext0 : ExtI st stf := by
            have := runFactory_extI name im.defaultExport st
            rwa [hf] at this
          cases fres with
          | error e => exact hext0
          | ok raw =>
              simp only
              have hreg : ∀ u' : UnitRec,
                  ExtI stf { stf with units := Table.set stf.units name u' } := by
                intro u'
                refine ⟨rfl, rfl, ⟨[], by simp⟩, fun m h => ?_⟩
                exact Table.hasKey_set_mono stf.units name m _ h
              have hext1 : ExtI st _ := ExtI_trans hext0 (hreg
                (UnitRec.mk (Table.set (undot raw) "name" (.str name)) im.requires im.provides))
              cases validateShape (Table.set (undot raw) "name" (.str name)) with
              | some f => exact hext1
              | none =>
                  simp only
                  refine ExtI_trans hext1 ?_
                  refine andThen_extI ((runOptHook_ext _ "onBeforeLoad" _).toExtI)
                    (fun s1 => ?_)
                  refine andThen_extI (installDeps_extI recur hrec name im.requires s1)
                    (fun s2 => ?_)
                  refine andThen_extI ((tagsLoop_ext _ im.provides s2).toExtI)
                    (fun s3 => ?_)
                  refine andThen_extI ((runOptHook_ext _ "onPrepare" s3).toExtI)
                    (fun s4 => ?_)
                  refine andThen_extI ((injectRegLoop_ext (injFields _) s4).toExtI)
                    (fun s5 => ?_)
                  cases hrun : injectRunLoop (Table.set (undot raw) "name" (.str name))
                      s5.injectors [Table.set (undot raw) "name" (.str name)] s5 with
                  | mk s6 lres =>
                      have hs6 : s6 = s5 := by
                        have := injectRunLoop_state
                          (Table.set (undot raw) "name" (.str name)) s5.injectors
                          [Table.set (undot raw) "name" (.str name)] s5
                        rwa [hrun] at this
                      subst hs6
                      cases lres with
                      | error e => exact ExtI_refl s6
                      | ok layers =>
                          simp only
                          refine ExtI_trans
                            ((registerLoop_ext layers s6).toExtI) ?_
                          refine andThen_extI
                            ((processPipelines_ext name layers _ _).toExtI)
                            (fun s7 => ?_)
                          refine andThen_extI ((onReadyLoop_ext layers s7).toExtI)
                            (fun s8 => ?_)
                          exact (registerHooks_ext layers s8).toExtI

/-- `#install` preserves the controller phase and the reentrancy-marker
set, extends the trace, and never removes unit-table entries. -/
theorem installGo_extI (repo : Repo) (fuel : Nat) (name : String) (st : MState) :
    ExtI st (installGo repo fuel name st).1 := by
  induction fuel generalizing name st with
  | zero => exact ExtI_refl st
  | succ n ih =>
      simp only [installGo]
      by_cases hin : (Table.get? st.units name).isSome = true
      · simp only [hin, if_true]; exact ExtI_refl st
      · simp only [hin, if_false]
        by_cases hmem : name ∈ st.installing
        · simp only [hmem, if_true]; exact ExtI_refl st
        · simp only [hmem, if_false]
          cases hstep : installStep repo (installGo repo n) name
              { st with installing := name :: st.installing } with
          | mk st2 res =>
              have h2 : ExtI { st with installing := name :: st.installing } st2 := by
                have := installStep_extI repo (installGo repo n)
                  (fun nm s => ih nm s) name
                  { st with installing := name :: st.installing }
                rwa [hstep] at this
              obtain ⟨hp, hi, ⟨t, ht⟩, hu⟩ := h2
              refine ⟨hp, ?_, ⟨t, ht⟩, hu⟩
              rw [hi]
              simp

/-- Whichever error a public operation raises while the controller is not
in the state it demands. -/
theorem install_not_idle (repo : Repo) (fuel : Nat) (name : String)
    (st : MState) (h : st.phase ≠ .idle) :
    install repo fuel name st = (st, some .busy) := by
  simp [install, h]

theorem start_not_idle (st : MState) (h : st.phase ≠ .idle) :
    start st = (st, some .busy) := by
  simp [start, h]

theorem stop_not_started (st : MState) (h : st.phase ≠ .started) :
    stop st = (st, some .notStarted) := by
  simp [stop, h]

theorem runOps_fixed (repo : Repo) (fuel : Nat) (st : MState)
    (hi : st.phase ≠ .idle) (hs : st.phase ≠ .started) :
    ∀ ops : List Op, runOps repo fuel ops st = st := by
  intro ops
  induction ops with
  | nil => rfl
  | cons op ops ih =>
      have hstep : (runOp repo fuel op st).1 = st := by
        cases op with
        | installOp n => simp [runOp, install_not_idle repo fuel n st hi]
        | startOp => simp [runOp, start_not_idle st hi]
        | stopOp => simp [runOp, stop_not_started st hs]
      simpa [runOps, hstep] using ih

/-- C9: if a public `install` call that actually starts (controller idle)
rejects, the controller is left at `installing` — there is no error-path
reset — and from then on `install` and `start` reject with the busy error,
`stop` rejects with the not-started error, and no sequence of public calls
ever changes the state again. -/
theorem claim_C9 (repo : Repo) (fuel : Nat) (name : String) (st st' : MState)
    (e : Err) (hidle : st.phase = .idle)
    (hfail : install repo fuel name st = (st', some e)) :
    st'.phase = .installing
    ∧ (∀ (repo2 : Repo) (fuel2 : Nat) (nm : String),
        install repo2 fuel2 nm st' = (st', some .busy))
    ∧ start st' = (st', some .busy)
    ∧ stop st' = (st', some .notStarted)
    ∧ (∀ (ops : List Op), runOps repo fuel ops st' = st') := by
  have hphase : st'.phase = .installing := by
    simp only [install, hidle, if_true] at hfail
    cases hgo : installGo repo fuel name { st with phase := .installing } with
    | mk st2 res =>
        cases res with
        | none => rw [hgo] at hfail; simp at hfail
        | some e2 =>
            rw [hgo] at hfail
            simp only at hfail
            obtain ⟨h1, _⟩ := Prod.mk.injEq .. ▸ hfail
            have hext := installGo_extI repo fuel name { st with phase := .installing }
            rw [hgo] at hext
            rw [← h1]
            exact hext.1
  refine ⟨hphase, ?_, ?_, ?_, ?_⟩
  · intro repo2 fuel2 nm
    exact install_not_idle repo2 fuel2 nm st' (by simp [hphase])
  · exact start_not_idle st' (by simp [hphase])
  · exact stop_not_started st' (by simp [hphase])
  · exact runOps_fixed repo fuel st' (by simp [hphase]) (by simp [hphase])

/-- A host with a single unit `u` whose factory throws. -/
def throwFacRepo : Repo := fun n =>
  if n = "u" then
    .found "units/u.js" (ModuleDef.mk (.fn 1 (.error (.thrown "boom"))) true [] [])
  else .resolveErr (.thrown ("no unit " ++ n))

/-- C9 witness: installing `u` from a fresh instance rejects and leaves the
controller at `installing`. -/
theorem claim_C9_witness :
    MState.phase {} = Phase.idle
    ∧ (install throwFacRepo 2 "u" {}).1.phase = .installing :=
  ⟨rfl, (claim_C9 throwFacRepo 2 "u" {} _ (.thrown "boom") rfl rfl).1⟩

/-- C10: after a successful `stop()` the controller state is `stopped`,
which no public operation accepts: `install` and `start` (which demand
`idle`) reject with the busy error, `stop` (which demands `started`)
rejects with the not-started error — so a second `stop()` is not a no-op —
and no sequence of public calls ever changes the state again. -/
theorem claim_C10 (st st' : MState) (hstop : stop st = (st', none)) :
    st'.phase = .stopped
    ∧ (∀ (repo : Repo) (fuel : Nat) (nm : String),
        install repo fuel nm st' = (st', some .busy))
    ∧ start st' = (st', some .busy)
    ∧ stop st' = (st', some .notStarted)
    ∧ (∀ (repo : Repo) (fuel : Nat) (ops : List Op), runOps repo fuel ops st' = st') := by
  have hphase : st'.phase = .stopped := by
    unfold stop at hstop
    by_cases hs : st.phase = .started
    · simp only [hs, if_true] at hstop
      cases h1 : drainHooks st.onStop { st with phase := .stopping } with
      | mk s1 r1 =>
          rw [h1] at hstop
          cases r1 with
          | some e => simp at hstop
          | none =>
              simp only at hstop
              cases h2 : drainHooks s1.onShutdown { s1 with phase := .shutdown } with
              | mk s2 r2 =>
                  rw [h2] at hstop
                  cases r2 with
                  | some e => simp at hstop
                  | none =>
                      simp only at hstop
                      obtain ⟨h3, _⟩ := Prod.mk.injEq .. ▸ hstop
                      rw [← h3]
    · simp [hs] at hstop
  refine ⟨hphase, ?_, ?_, ?_, ?_⟩
  · intro repo fuel nm
    exact install_not_idle repo fuel nm st' (by simp [hphase])
  · exact start_not_idle st' (by simp [hphase])
  · exact stop_not_started st' (by simp [hphase])
  · intro repo fuel ops
    exact runOps_fixed repo fuel st' (by simp [hphase]) (by simp [hphase]) ops

/-- C10 witness: stopping a started instance with empty queues. -/
theorem claim_C10_witness :
    stop ({ phase := .started } : MState) = ((stop ({ phase := .started } : MState)).1, none)
    ∧ (stop ({ phase := .started } : MState)).1.phase = .stopped :=
  ⟨rfl, (claim_C10 { phase := .started } _ rfl).1⟩

/-! ## C4: stop/teardown drain order -/

/-- The stop callbacks one install contributes, in layer order
(`layers.map(l => l.onStop).filter(Boolean)`). -/
def stopHooksOf (ls : List Layer) : List CVal := ls.filterMap (layerHook "onStop")

/-- The shutdown callbacks one install contributes. -/
def shutHooksOf (ls : List Layer) : List CVal := ls.filterMap (layerHook "onShutdown")

/-- A queued callback that runs to completion without throwing. -/
def hookOk : CVal → Bool
  | .fn _ (.ok _) => true
  | _ => false

def hookId : CVal → Nat
  | .fn id _ => id
  | _ => 0

/-- The trace a queue drain leaves behind, one event per invocation. -/
def hookEvs (hs : List CVal) : List Ev := hs.map (fun h => .hookRun (hookId h))

theorem drainHooks_ok (hs : List CVal) (st : MState) (h : hs.all hookOk = true) :
    drainHooks hs st = ({ st with trace := st.trace ++ hookEvs hs }, none) := by
  induction hs generalizing st with
  | nil => simp [drainHooks, hookEvs]
  | cons hd tl ih =>
      simp only [List.all_cons, Bool.and_eq_true] at h
      obtain ⟨h1, h2⟩ := h
      cases hd with
      | fn id beh =>
          cases beh with
          | ok v =>
              simp only [drainHooks]
              rw [ih _ h2]
              simp [hookEvs, hookId]
          | error e => simp [hookOk] at h1
      | undefined => simp [hookOk] at h1
      | null => simp [hookOk] at h1
      | bool b => simp [hookOk] at h1
      | num n => simp [hookOk] at h1
      | str s => simp [hookOk] at h1
      | obj fs => simp [hookOk] at h1

theorem drainHooks_fail (pre : List CVal) (id : Nat) (e : Err) (post : List CVal)
    (st : MState) (hpre : pre.all hookOk = true) :
    drainHooks (pre ++ .fn id (.error e) :: post) st
      = ({ st with trace := st.trace ++ hookEvs pre ++ [.hookRun id] }, some e) := by
  induction pre generalizing st with
  | nil => simp [drainHooks, hookEvs]
  | cons hd tl ih =>
      simp only [List.all_cons, Bool.and_eq_true] at hpre
      obtain ⟨h1, h2⟩ := hpre
      cases hd with
      | fn hid beh =>
          cases beh with
          | ok v =>
              simp only [List.cons_append, drainHooks, List.append_eq]
              rw [ih _ h2]
              simp [hookEvs, hookId, List.append_assoc]
          | error e2 => simp [hookOk] at h1
      | undefined => simp [hookOk] at h1
      | null => simp [hookOk] at h1
      | bool b => simp [hookOk] at h1
      | num n => simp [hookOk] at h1
      | str s => simp [hookOk] at h1
      | obj fs => simp [hookOk] at h1

/-- Update only the controller phase and the trace. -/
def setPhaseTrace (st : MState) (ph : Phase) (tr : List Ev) : MState :=
  { st with phase := ph, trace := tr }

/-- The queues of an instance that started as `started` with empty queues
and then collected hooks from a sequence of installs (each contributing its
layer list, in install-completion order). -/
def queuesAfterInstalls (layerss : List (List Layer)) : MState :=
  layerss.foldl (fun s ls => registerHooks ls s) { phase := .started }

theorem registerHooks_fold (layerss : List (List Layer)) (base : MState) :
    let r := layerss.foldl (fun s ls => registerHooks ls s) base
    r.onStop = base.onStop ++ (layerss.map stopHooksOf).flatten
    ∧ r.onShutdown = (layerss.reverse.map shutHooksOf).flatten ++ base.onShutdown
    ∧ r.phase = base.phase ∧ r.trace = base.trace := by
  induction layerss generalizing base with
  | nil => simp
  | cons ls rest ih =>
      obtain ⟨h1, h2, h3, h4⟩ := ih (registerHooks ls base)
      refine ⟨?_, ?_, ?_, ?_⟩
      · simp only [List.foldl_cons]
        rw [h1]
        simp [registerHooks, stopHooksOf, List.append_assoc]
      · simp only [List.foldl_cons]
        rw [h2]
        simp [registerHooks, shutHooksOf, List.reverse_cons, List.append_assoc]
      · simp only [List.foldl_cons]
        rw [h3]
        simp [registerHooks]
      · simp only [List.foldl_cons]
        rw [h4]
        simp [registerHooks]

/-- C4: `stop()` invokes every queued stop callback in install (append)
order, then every queued shutdown/teardown callback in exactly the reverse
of install order; when a shutdown callback throws, every callback queued
ahead of it has already run (its event is in the trace), the failing
callback's own invocation happened, nothing queued after it runs, and the
call rejects with exactly that error. -/
theorem claim_C4 (layerss : List (List Layer)) :
    (queuesAfterInstalls layerss).onStop = (layerss.map stopHooksOf).flatten
    ∧ (queuesAfterInstalls layerss).onShutdown
        = (layerss.reverse.map shutHooksOf).flatten
    ∧ ((queuesAfterInstalls layerss).onStop.all hookOk = true →
      (((queuesAfterInstalls layerss).onShutdown.all hookOk = true →
        stop (queuesAfterInstalls layerss)
          = (setPhaseTrace (queuesAfterInstalls layerss) .stopped
              (hookEvs (queuesAfterInstalls layerss).onStop
                ++ hookEvs (queuesAfterInstalls layerss).onShutdown), none))
      ∧ (∀ (pre : List CVal) (id : Nat) (e : Err) (post : List CVal),
          (queuesAfterInstalls layerss).onShutdown = pre ++ .fn id (.error e) :: post →
          pre.all hookOk = true →
          stop (queuesAfterInstalls layerss)
            = (setPhaseTrace (queuesAfterInstalls layerss) .shutdown
                (hookEvs (queuesAfterInstalls layerss).onStop
                  ++ (hookEvs pre ++ [.hookRun id])), some e)))) := by
  obtain ⟨h1, h2, h3, h4⟩ := registerHooks_fold layerss { phase := .started }
  have hphp : (queuesAfterInstalls layerss).phase = .started := h3
  have htr : (queuesAfterInstalls layerss).trace = [] := h4
  refine ⟨by simpa [queuesAfterInstalls] using h1,
          by simpa [queuesAfterInstalls] using h2, ?_⟩
  intro hstopOk
  constructor
  · intro hshutOk
    unfold stop
    rw [if_pos hphp]
    rw [drainHooks_ok _ _ hstopOk]
    simp only
    rw [drainHooks_ok _ _ hshutOk]
    simp [htr, setPhaseTrace, List.append_assoc]
  · intro pre id e post hdecomp hpreOk
    unfold stop
    rw [if_pos hphp]
    rw [drainHooks_ok _ _ hstopOk]
    simp only
    rw [hdecomp, drainHooks_fail _ _ _ _ _ hpreOk]
    simp [htr, setPhaseTrace, List.append_assoc]
    exact hdecomp.symm

/-- Two installs, one layer each: stop hooks 1 and 3, shutdown hooks 2 and
4 (hook 4, contributed by the later install, throws). -/
def c4Layerss : List (List Layer) :=
  [[[("onStop", CVal.fn 1 (.ok .undefined)), ("onShutdown", CVal.fn 2 (.ok .undefined))]],
   [[("onStop", CVal.fn 3 (.ok .undefined)),
     ("onShutdown", CVal.fn 4 (.error (.thrown "teardown fail")))]]]

/-- C4 witness: two installed units, each contributing one stop and one
shutdown callback; the later-installed unit's shutdown callback (id 4,
queued first in the teardown queue) throws. -/
theorem claim_C4_witness :
    (queuesAfterInstalls c4Layerss).onStop.all hookOk = true
    ∧ (queuesAfterInstalls c4Layerss).onShutdown
        = [] ++ CVal.fn 4 (.error (.thrown "teardown fail"))
            :: [CVal.fn 2 (.ok .undefined)]
    ∧ stop (queuesAfterInstalls c4Layerss)
        = (setPhaseTrace (queuesAfterInstalls c4Layerss) .shutdown
            (hookEvs (queuesAfterInstalls c4Layerss).onStop
              ++ (hookEvs [] ++ [.hookRun 4])), some (.thrown "teardown fail")) :=
  ⟨rfl, rfl,
    ((claim_C4 c4Layerss).2.2 rfl).2 [] 4 (.thrown "teardown fail")
      [CVal.fn 2 (.ok .undefined)] rfl rfl⟩

/-! ## C6: the reentrancy guard and dependency cycles -/

/-- Two units that require each other. -/
def cycleRepo : Repo := fun n =>
  if n = "A" then .found "units/A.js" (ModuleDef.mk (.fn 1 (.ok (.obj []))) true ["B"] [])
  else if n = "B" then .found "units/B.js" (ModuleDef.mk (.fn 2 (.ok (.obj []))) true ["A"] [])
  else .resolveErr (.thrown ("no unit " ++ n))

/-- C6 counterexample: the claim says any dependency cycle A → ... → A
manifests as re-entry and fails with the reentrancy error.  On the code, a
cycle completes *successfully*: each unit is registered into the installed
table before its dependencies are recursed into, so the back edge
short-circuits on the `this.units[dep]` check.  Installing `A` with
`A requires B, B requires A` succeeds, installs both, and runs each
factory exactly once. -/
theorem claim_C6_cex :
    (installGo cycleRepo 3 "A" {}).2 = none
    ∧ Table.hasKey (installGo cycleRepo 3 "A" {}).1.units "A" = true
    ∧ Table.hasKey (installGo cycleRepo 3 "A" {}).1.units "B" = true
    ∧ (installGo cycleRepo 3 "A" {}).1.trace = [.factoryCall "A", .factoryCall "B"] :=
  ⟨rfl, rfl, rfl, rfl⟩

/-- C6 (amended): if `#install` is re-entered for a name that is mid-install
and not yet in the installed table, it fails immediately with the
reentrancy error (state untouched), and the `installing` marker set is
restored on every exit, success and error alike.  A dependency cycle,
however, never causes such re-entry, because the unit is registered into
the installed table before its dependencies are recursed into (the cycle
completes instead of failing — see the counterexample). -/
theorem claim_C6 :
    (∀ (repo : Repo) (fuel : Nat) (name : String) (st : MState),
      fuel ≠ 0 → name ∈ st.installing → Table.get? st.units name = none →
      installGo repo fuel name st = (st, some (.reentrant name)))
    ∧ (∀ (repo : Repo) (fuel : Nat) (name : String) (st : MState),
      ((installGo repo fuel name st).1).installing = st.installing) := by
  constructor
  · intro repo fuel name st hf hmem hno
    cases fuel with
    | zero => exact absurd rfl hf
    | succ n =>
        simp [installGo, hno, hmem]
  · intro repo fuel name st
    exact (installGo_extI repo fuel name st).2.1

/-- C6 witness: re-entering the install of `A` while `A` is marked
mid-install and not yet registered. -/
theorem claim_C6_witness :
    (1 : Nat) ≠ 0 ∧ "A" ∈ (["A"] : List String)
    ∧ Table.get? (MState.units { installing := ["A"] }) "A" = none
    ∧ installGo cycleRepo 1 "A" { installing := ["A"] }
        = ({ installing := ["A"] }, some (.reentrant "A")) :=
  ⟨by decide, by decide, rfl,
    claim_C6.1 cycleRepo 1 "A" { installing := ["A"] } (by decide) (by decide) rfl⟩

/-! ## C1: error propagation and the installed-unit table -/

/-- A unit whose config fails shape validation (`onStart: 5`). -/
def badShapeRepo : Repo := fun n =>
  if n = "u" then
    .found "units/u.js"
      (ModuleDef.mk (.fn 1 (.ok (.obj [("onStart", .num 5)]))) true [] [])
  else .resolveErr (.thrown ("no unit " ++ n))

/-- A unit requiring an unsatisfied feature tag. -/
def tagMissRepo : Repo := fun n =>
  if n = "c" then
    .found "units/c.js" (ModuleDef.mk (.fn 1 (.ok (.obj []))) true ["#storage"] [])
  else .resolveErr (.thrown ("no unit " ++ n))

/-- Two units that both define the context key `logger`. -/
def dupKeyRepo : Repo := fun n =>
  if n = "logger" then
    .found "units/logger.js"
      (ModuleDef.mk (.fn 1 (.ok (.obj [("define", .obj [("logger", .fn 2 (.ok (.str "L1")))])]))) true [] [])
  else if n = "d" then
    .found "units/d.js"
      (ModuleDef.mk (.fn 3 (.ok (.obj [("define", .obj [("logger", .fn 4 (.ok (.str "L2")))])]))) true ["logger"] [])
  else .resolveErr (.thrown ("no unit " ++ n))

/-- C1 counterexample: the claim says a failure at any step after import —
shape validation among them — leaves `n` absent from the installed-unit
table.  On the code, the unit record is registered (`this.units[name] =
undot(unitConfig)`, line 189) *before* shape validation (line 200), so a
unit whose config fails validation rejects with the validation error but
remains in the installed table. -/
theorem claim_C1_cex :
    (install badShapeRepo 2 "u" {}).2 = some (.shapeBad "u" "onStart")
    ∧ Table.hasKey (install badShapeRepo 2 "u" {}).1.units "u" = true :=
  ⟨rfl, rfl⟩

/-- C1 (amended): every install error propagates unchanged to the caller,
but only a failure at or before the factory stage (import, factory throw,
non-object factory return) leaves the unit absent from the installed
table; any later failure (shape validation, missing tag, duplicate tag,
duplicate context key, hook or pipeline-processor error) leaves the
already-registered unit record in the table.  In particular a throwing
factory rejects `install` with exactly that error and the unit never
appears in the table. -/
theorem claim_C1 :
    (∀ (repo : Repo) (fuel : Nat) (name path : String) (m : ModuleDef)
      (id : Nat) (e : Err) (st : MState),
      st.phase = .idle → Table.get? st.units name = none →
      name ∉ st.installing →
      repo name = .found path m → m.hasInfo = true →
      m.defaultExport = .fn id (.error e) →
      (install repo (fuel + 1) name st).2 = some e
      ∧ (install repo (fuel + 1) name st).1.units = st.units)
    ∧ (∀ (repo : Repo) (fuel : Nat) (name path : String) (m : ModuleDef)
      (id : Nat) (raw : Layer) (f : String) (st : MState),
      st.phase = .idle → Table.get? st.units name = none →
      name ∉ st.installing →
      repo name = .found path m → m.hasInfo = true →
      m.defaultExport = .fn id (.ok (.obj raw)) →
      validateShape (Table.set (undot raw) "name" (.str name)) = some f →
      (install repo (fuel + 1) name st).2 = some (.shapeBad name f)
      ∧ Table.hasKey (install repo (fuel + 1) name st).1.units name = true)
    ∧ ((install tagMissRepo 2 "c" {}).2 = some (.missingTag "c" "#storage")
      ∧ Table.hasKey (install tagMissRepo 2 "c" {}).1.units "c" = true)
    ∧ ((install dupKeyRepo 3 "d" {}).2 = some (.duplicateContextKey "logger")
      ∧ Table.hasKey (install dupKeyRepo 3 "d" {}).1.units "d" = true) := by
  refine ⟨?_, ?_, ⟨rfl, rfl⟩, ⟨rfl, rfl⟩⟩
  · intro repo fuel name path m id e st hidle hno hni hrepo hinfo hdef
    have hstep : install repo (fuel + 1) name st
        = ({ st with phase := .installing, trace := st.trace ++ [.factoryCall name] }, some e) := by
      simp only [install, hidle, if_true, installGo, hno, Option.isSome_none,
        Bool.false_eq_true, if_false, hni, installStep, importUnitWithInfo, hrepo,
        hinfo, if_true, runFactory, hdef]
      simp [List.erase_cons_head]
    rw [hstep]
    exact ⟨rfl, rfl⟩
  · intro repo fuel name path m id raw f st hidle hno hni hrepo hinfo hdef hval
    have hstep : (install repo (fuel + 1) name st).2 = some (.shapeBad name f)
        ∧ (install repo (fuel + 1) name st).1.units
            = Table.set st.units name
                (UnitRec.mk (Table.set (undot raw) "name" (.str name)) m.requires m.provides) := by
      simp only [install, hidle, if_true, installGo, hno, Option.isSome_none,
        Bool.false_eq_true, if_false, hni, installStep, importUnitWithInfo, hrepo,
        hinfo, if_true, runFactory, hdef, hval]
      simp
    refine ⟨hstep.1, ?_⟩
    rw [Table.hasKey, hstep.2, Table.get_set_self]
    rfl

/-- C1 witness: the factory-throw clause at the concrete host whose unit
`u` throws `'boom'`: install rejects with exactly that error and `u` is
absent from the table. -/
theorem claim_C1_witness :
    (install throwFacRepo 1 "u" {}).2 = some (.thrown "boom")
    ∧ (install throwFacRepo 1 "u" {}).1.units = MState.units {} :=
  claim_C1.1 throwFacRepo 0 "u" "units/u.js"
    (ModuleDef.mk (.fn 1 (.error (.thrown "boom"))) true [] []) 1 (.thrown "boom") {}
    rfl rfl (by decide) rfl rfl rfl

/-! ## C3: pipeline fragments and processor registration order -/

/-- `early` carries a `routes` fragment before any `routes` processor
exists; `main`, installed after it, registers one. -/
def retroRepo : Repo := fun n =>
  if n = "early" then
    .found "units/early.js"
      (ModuleDef.mk (.fn 1 (.ok (.obj [("routes", .obj [("x", .num 1)])]))) true [] [])
  else if n = "main" then
    .found "units/main.js"
      (ModuleDef.mk (.fn 2 (.ok (.obj [("register", .obj [("routes", .fn 7 (.ok .undefined))])]))) true ["early"] [])
  else .resolveErr (.thrown ("no unit " ++ n))

/-- C3 counterexample: the claim includes units already installed before a
processor for the name was registered.  Installing `main` (which requires
`early`, then registers a `routes` processor) succeeds and leaves a
registered `routes` pipeline and an installed `early` whose fields carry a
truthy `routes` fragment — yet the trace shows no processor ever ran for
`early`: fragments are not retroactively processed. -/
theorem claim_C3_cex :
    (install retroRepo 3 "main" {}).2 = none
    ∧ (Table.get? (install retroRepo 3 "main" {}).1.loaders "routes").isSome = true
    ∧ (match Table.get? (install retroRepo 3 "main" {}).1.units "early" with
        | some u => truthy ((Table.get? u.fields "routes").getD .undefined)
        | none => false) = true
    ∧ (install retroRepo 3 "main" {}).1.trace
        = [.factoryCall "main", .factoryCall "early"] :=
  ⟨rfl, rfl, rfl, rfl⟩

/-- Whether a layer carries a truthy fragment under a pipeline name. -/
def fragTruthy (pipe : String) (conf : Layer) : Bool :=
  truthy ((Table.get? conf pipe).getD .undefined)

/-- A registered processor that is a user function returning normally. -/
def loaderFine : LoaderV → Bool
  | .user (.fn _ (.ok _)) => true
  | _ => false

/-- The processor-invocation events for indices `i, i+1, …, i+n-1`. -/
def procEvsFrom (pipe uname : String) : Nat → Nat → List Ev
  | _, 0 => []
  | i, n + 1 => .procRun pipe i uname :: procEvsFrom pipe uname (i + 1) n

/-- The canonical pipeline trace: for every pipeline name in registry
order, every layer carrying a truthy fragment under it is run through the
whole registration list, in registration (index) order. -/
def pipeSpecTrace (uname : String) (layers : List Layer) :
    Table (List LoaderV) → List Ev
  | [] => []
  | (pipe, lds) :: rest =>
      ((layers.filter (fragTruthy pipe)).map
        (fun _ => procEvsFrom pipe uname 0 lds.length)).flatten
      ++ pipeSpecTrace uname layers rest

theorem runLoaderList_fine (pipe uname : String) (frag : CVal)
    (lds : List LoaderV) (i : Nat) (st : MState) (h : lds.all loaderFine = true) :
    runLoaderList pipe uname frag lds i st
      = ({ st with trace := st.trace ++ procEvsFrom pipe uname i lds.length }, none) := by
  induction lds generalizing i st with
  | nil => simp [runLoaderList, procEvsFrom]
  | cons l ls ih =>
      simp only [List.all_cons, Bool.and_eq_true] at h
      obtain ⟨h1, h2⟩ := h
      cases l with
      | builtinDefine => simp [loaderFine] at h1
      | user v =>
          cases v with
          | fn id beh =>
              cases beh with
              | ok v =>
                  simp only [runLoaderList]
                  rw [ih _ _ h2]
                  simp [procEvsFrom, List.append_assoc]
              | error e => simp [loaderFine] at h1
          | undefined => simp [loaderFine] at h1
          | null => simp [loaderFine] at h1
          | bool b => simp [loaderFine] at h1
          | num n => simp [loaderFine] at h1
          | str s => simp [loaderFine] at h1
          | obj fs => simp [loaderFine] at h1

theorem runPipeOnLayers_fine (pipe uname : String) (lds : List LoaderV)
    (layers : List Layer) (st : MState)
    (h : layers.any (fragTruthy pipe) = true → lds.all loaderFine = true) :
    runPipeOnLayers pipe uname lds layers st
      = ({ st with trace := st.trace ++ ((layers.filter (fragTruthy pipe)).map
            (fun _ => procEvsFrom pipe uname 0 lds.length)).flatten }, none) := by
  induction layers generalizing st with
  | nil => simp [runPipeOnLayers]
  | cons conf rest ih =>
      have hrest : rest.any (fragTruthy pipe) = true → lds.all loaderFine = true :=
        fun ha => h (by rw [List.any_cons, ha, Bool.or_true])
      simp only [runPipeOnLayers]
      cases hf : Table.get? conf pipe with
      | none =>
          have hft : fragTruthy pipe conf = false := by
            simp [fragTruthy, hf, truthy]
          rw [ih st hrest]
          simp [hft]
      | some frag =>
          by_cases ht : truthy frag = true
          · have hft : fragTruthy pipe conf = true := by simp [fragTruthy, hf, ht]
            have hall : lds.all loaderFine = true :=
              h (by rw [List.any_cons, hft, Bool.true_or])
            simp only [ht, if_true]
            rw [runLoaderList_fine pipe uname frag lds 0 st hall]
            simp only
            rw [ih _ hrest]
            simp [hft, List.append_assoc]
          · have hft : fragTruthy pipe conf = false := by
              simp only [fragTruthy, hf, Option.getD_some]
              exact Bool.eq_false_iff.mpr ht
            simp only [ht, if_false]
            rw [ih st hrest]
            simp [hft]

theorem processPipelines_fine (uname : String) (layers : List Layer)
    (reg : Table (List LoaderV)) (st : MState)
    (h : ∀ p ∈ reg, layers.any (fragTruthy p.1) = true → p.2.all loaderFine = true) :
    processPipelines uname layers reg st
      = ({ st with trace := st.trace ++ pipeSpecTrace uname layers reg }, none) := by
  induction reg generalizing st with
  | nil => simp [processPipelines, pipeSpecTrace]
  | cons p rest ih =>
      obtain ⟨pipe, lds⟩ := p
      simp only [processPipelines]
      rw [runPipeOnLayers_fine pipe uname lds layers st
        (h (pipe, lds) (List.mem_cons_self _ _))]
      simp only
      rw [ih _ (fun q hq => h q (List.mem_cons_of_mem _ hq))]
      simp [pipeSpecTrace, List.append_assoc]

/-- C3 (amended): a unit's configuration fragments are run through the
pipeline registry only during that unit's own install: for every pipeline
name in the registry at that moment (in registry order), every layer
carrying a truthy fragment under that name is run through every processor
registered under it, in processor-registration order — assuming the invoked
processors return normally.  Units installed before a processor's
registration are not retroactively processed (see the counterexample). -/
theorem claim_C3 (uname : String) (layers : List Layer)
    (reg : Table (List LoaderV)) (st : MState)
    (h : ∀ p ∈ reg, layers.any (fragTruthy p.1) = true → p.2.all loaderFine = true) :
    processPipelines uname layers reg st
      = ({ st with trace := st.trace ++ pipeSpecTrace uname layers reg }, none) :=
  processPipelines_fine uname layers reg st h

/-- C3 witness: two `routes` processors registered (ids 7 then 8) and one
layer with a truthy `routes` fragment: both run, index 0 before index 1. -/
theorem claim_C3_witness :
    pipeSpecTrace "api" [[("routes", CVal.obj [("p", .num 1)])]]
        [("routes", [LoaderV.user (.fn 7 (.ok .undefined)), LoaderV.user (.fn 8 (.ok .undefined))])]
      = [.procRun "routes" 0 "api", .procRun "routes" 1 "api"]
    ∧ processPipelines "api" [[("routes", CVal.obj [("p", .num 1)])]]
        [("routes", [LoaderV.user (.fn 7 (.ok .undefined)), LoaderV.user (.fn 8 (.ok .undefined))])]
        {}
      = ({ ({} : MState) with trace := [] ++ [Ev.procRun "routes" 0 "api", Ev.procRun "routes" 1 "api"] }, none) := by
  constructor
  · rfl
  · have h := claim_C3 "api" [[("routes", CVal.obj [("p", .num 1)])]]
      [("routes", [LoaderV.user (.fn 7 (.ok .undefined)), LoaderV.user (.fn 8 (.ok .undefined))])]
      {} (by decide)
    simpa using h

/-! ## C5: idempotence and at-most-one factory invocation -/

/-- How many times `m`'s factory has been invoked, per the trace. -/
def countFactory (m : String) : List Ev → Nat
  | [] => 0
  | .factoryCall n :: rest => (if n = m then 1 else 0) + countFactory m rest
  | .hookRun _ :: rest => countFactory m rest
  | .procRun _ _ _ :: rest => countFactory m rest

theorem countFactory_append (m : String) (a b : List Ev) :
    countFactory m (a ++ b) = countFactory m a + countFactory m b := by
  induction a with
  | nil => simp [countFactory]
  | cons ev rest ih =>
      cases ev with
      | factoryCall n => simp [countFactory, ih, Nat.add_assoc]
      | hookRun id => simp [countFactory, ih]
      | procRun p i u => simp [countFactory, ih]

theorem countFactory_noFac (m : String) (t : List Ev)
    (h : ∀ m', Ev.factoryCall m' ∉ t) : countFactory m t = 0 := by
  induction t with
  | nil => rfl
  | cons ev rest ih =>
      cases ev with
      | factoryCall n => exact absurd (List.mem_cons_self _ _) (h n)
      | hookRun id =>
          exact (countFactory.eq_def ..) ▸ ih (fun m' hm => h m' (List.mem_cons_of_mem _ hm))
      | procRun p i u =>
          exact (countFactory.eq_def ..) ▸ ih (fun m' hm => h m' (List.mem_cons_of_mem _ hm))

/-- The install invariant: every unit's factory has run at most once, and a
unit whose factory has run is present in the installed table. -/
def FacInv (st : MState) : Prop :=
  ∀ m, countFactory m st.trace ≤ 1
    ∧ (countFactory m st.trace = 1 → Table.hasKey st.units m = true)

/-- What survives an error exit: the at-most-once bound. -/
def FacBound (st : MState) : Prop := ∀ m, countFactory m st.trace ≤ 1

def ResInv (p : MState × Option Err) : Prop :=
  FacBound p.1 ∧ (p.2 = none → FacInv p.1)

theorem FacInv.toBound {st : MState} (h : FacInv st) : FacBound st :=
  fun m => (h m).1

theorem FacInv_of_ext {st st' : MState} (hext : Ext st st') (h : FacInv st) :
    FacInv st' := by
  obtain ⟨_, _, ⟨t, ht, hnf⟩, hu, _⟩ := hext
  intro m
  have hc : countFactory m st'.trace = countFactory m st.trace := by
    rw [ht, countFactory_append, countFactory_noFac m t hnf, Nat.add_zero]
  exact ⟨hc ▸ (h m).1, fun h1 => hu m ((h m).2 (hc ▸ h1))⟩

theorem resInv_of_ext {st : MState} {p : MState × Option Err}
    (hext : Ext st p.1) (h : FacInv st) : ResInv p :=
  ⟨(FacInv_of_ext hext h).toBound, fun _ => FacInv_of_ext hext h⟩

theorem andThen_resInv {r : MState × Option Err} {f : MState → MState × Option Err}
    (h1 : ResInv r) (h2 : ∀ s, FacInv s → ResInv (f s)) : ResInv (andThen r f) := by
  obtain ⟨s, res⟩ := r
  cases res with
  | none => exact h2 s (h1.2 rfl)
  | some e => exact h1

theorem installDeps_resInv (recur : String → MState → MState × Option Err)
    (hrec : ∀ nm st, FacInv st → ResInv (recur nm st)) (parent : String)
    (ds : List String) (st : MState) (h : FacInv st) :
    ResInv (installDeps recur parent ds st) := by
  induction ds generalizing st with
  | nil => exact ⟨h.toBound, fun _ => h⟩
  | cons d ds ih =>
      simp only [installDeps]
      by_cases hin : (Table.get? st.units d).isSome = true
      · simp only [hin, if_true]; exact ih st h
      · simp only [hin, if_false]
        by_cases hh : startsHash d = true
        · simp only [hh, if_true]
          exact ⟨h.toBound, fun hc => nomatch hc⟩
        · simp only [hh, if_false]
          cases hr : recur d st with
          | mk st' res =>
              have hres : ResInv (st', res) := hr ▸ hrec d st h
              cases res with
              | none => exact ih st' (hres.2 rfl)
              | some e => exact hres

theorem countFactory_snocFac (m name : String) (tr : List Ev) :
    countFactory m (tr ++ [.factoryCall name])
      = countFactory m tr + (if name = m then 1 else 0) := by
  rw [countFactory_append]
  simp [countFactory]

theorem installStep_resInv (repo : Repo)
    (recur : String → MState → MState × Option Err)
    (hrec : ∀ nm st, FacInv st → ResInv (recur nm st)) (name : String)
    (st : MState) (h : FacInv st) (hno : Table.get? st.units name = none) :
    ResInv (installStep repo recur name st) := by
  have hcount0 : countFactory name st.trace = 0 := by
    rcases Nat.lt_or_ge (countFactory name st.trace) 1 with hlt | hge
    · omega
    · have h1 : countFactory name st.trace = 1 := le_antisymm (h name).1 hge
      have := (h name).2 h1
      rw [Table.hasKey, hno] at this
      simp at this
  unfold installStep
  cases importUnitWithInfo repo name with
  | error e => exact ⟨h.toBound, fun hc => nomatch hc⟩
  | ok im =>
      simp only
      cases hf : runFactory name im.defaultExport st with
      | mk stf fres =>
          have hGen : stf = st
              ∨ stf = { st with trace := st.trace ++ [.factoryCall name] } := by
            have hstf : stf = (runFactory name im.defaultExport st).1 := by rw [hf]
            rw [hstf]; unfold runFactory
            cases im.defaultExport with
            | fn id beh =>
                cases beh with
                | error e => exact Or.inr rfl
                | ok v => cases v <;> exact Or.inr rfl
            | undefined => exact Or.inl rfl
            | null => exact Or.inl rfl
            | bool b => exact Or.inl rfl
            | num n => exact Or.inl rfl
            | str s => exact Or.inl rfl
            | obj fs => exact Or.inl rfl
          have hbound : FacBound stf := by
            rcases hGen with hsame | hsnoc
            · subst hsame; exact h.toBound
            · subst hsnoc
              intro m
              show countFactory m (st.trace ++ [Ev.factoryCall name]) ≤ 1
              rw [countFactory_snocFac]
              by_cases hm : name = m
              · subst hm; rw [hcount0]; simp
              · rw [if_neg hm, Nat.add_zero]; exact (h m).1
          have hkeyInv : ∀ u' : UnitRec,
              FacInv { stf with units := Table.set stf.units name u' } := by
            intro u'
            rcases hGen with hsame | hsnoc
            · intro m
              have hc : countFactory m stf.trace = countFactory m st.trace := by
                rw [hsame]
              constructor
              · show countFactory m stf.trace ≤ 1
                rw [hc]; exact (h m).1
              · intro h1
                by_cases hm : m = name
                · subst hm
                  show (Table.get? (Table.set stf.units m u') m).isSome = true
                  rw [Table.get_set_self]; rfl
                · have h1' : countFactory m stf.trace = 1 := h1
                  have hk := (h m).2 (hc ▸ h1')
                  have hk2 : Table.hasKey stf.units m = true := by rw [hsame]; exact hk
                  exact Table.hasKey_set_mono _ _ _ _ hk2
            · subst hsnoc
              intro m
              constructor
              · show countFactory m (st.trace ++ [Ev.factoryCall name]) ≤ 1
                rw [countFactory_snocFac]
                by_cases hm : name = m
                · subst hm; rw [hcount0]; simp
                · rw [if_neg hm, Nat.add_zero]; exact (h m).1
              · intro h1
                by_cases hm : m = name
                · subst hm
                  show (Table.get? (Table.set st.units m u') m).isSome = true
                  rw [Table.get_set_self]; rfl
                · have h1' : countFactory m (st.trace ++ [Ev.factoryCall name]) = 1 := h1
                  rw [countFactory_snocFac] at h1'
                  have hnm : name ≠ m := fun hh => hm hh.symm
                  rw [if_neg hnm, Nat.add_zero] at h1'
                  exact Table.hasKey_set_mono _ _ _ _ ((h m).2 h1')
          cases fres with
          | error e => exact ⟨hbound, fun hc => nomatch hc⟩
          | ok raw =>
              simp only
              have hinv1 : FacInv _ := hkeyInv
                (UnitRec.mk (Table.set (undot raw) "name" (.str name)) im.requires im.provides)
              cases validateShape (Table.set (undot raw) "name" (.str name)) with
              | some f => exact ⟨hinv1.toBound, fun hc => nomatch hc⟩
              | none =>
                  simp only
                  refine andThen_resInv (resInv_of_ext (runOptHook_ext _ "onBeforeLoad" _) hinv1)
                    (fun s1 hs1 => ?_)
                  refine andThen_resInv (installDeps_resInv recur hrec name im.requires s1 hs1)
                    (fun s2 hs2 => ?_)
                  refine andThen_resInv (resInv_of_ext (tagsLoop_ext _ im.provides s2) hs2)
                    (fun s3 hs3 => ?_)
                  refine andThen_resInv (resInv_of_ext (runOptHook_ext _ "onPrepare" s3) hs3)
                    (fun s4 hs4 => ?_)
                  refine andThen_resInv (resInv_of_ext (injectRegLoop_ext (injFields _) s4) hs4)
                    (fun s5 hs5 => ?_)
                  cases hrun : injectRunLoop (Table.set (undot raw) "name" (.str name))
                      s5.injectors [Table.set (undot raw) "name" (.str name)] s5 with
                  | mk s6 lres =>
                      have hs6 : s6 = s5 := by
                        have := injectRunLoop_state
                          (Table.set (undot raw) "name" (.str name)) s5.injectors
                          [Table.set (undot raw) "name" (.str name)] s5
                        rwa [hrun] at this
                      subst hs6
                      cases lres with
                      | error e => exact ⟨hs5.toBound, fun hc => nomatch hc⟩
                      | ok layers =>
                          simp only
                          have hs7 : FacInv (registerLoop layers s6) :=
                            FacInv_of_ext (registerLoop_ext layers s6) hs5
                          refine andThen_resInv
                            (resInv_of_ext (processPipelines_ext name layers _ _) hs7)
                            (fun s8 hs8 => ?_)
                          refine andThen_resInv (resInv_of_ext (onReadyLoop_ext layers s8) hs8)
                            (fun s9 hs9 => ?_)
                          exact ⟨(FacInv_of_ext (registerHooks_ext layers s9) hs9).toBound,
                            fun _ => FacInv_of_ext (registerHooks_ext layers s9) hs9⟩

theorem installGo_resInv (repo : Repo) (fuel : Nat) (name : String)
    (st : MState) (h : FacInv st) : ResInv (installGo repo fuel name st) := by
  induction fuel generalizing name st with
  | zero => exact ⟨h.toBound, fun hc => nomatch hc⟩
  | succ n ih =>
      simp only [installGo]
      by_cases hin : (Table.get? st.units name).isSome = true
      · simp only [hin, if_true]; exact ⟨h.toBound, fun _ => h⟩
      · simp only [hin, if_false]
        by_cases hmem : name ∈ st.installing
        · simp only [hmem, if_true]; exact ⟨h.toBound, fun hc => nomatch hc⟩
        · simp only [hmem, if_false]
          have h1 : FacInv { st with installing := name :: st.installing } :=
            fun m => h m
          have hno1 : Table.get? (MState.units { st with installing := name :: st.installing }) name = none := by
            simpa using Option.not_isSome_iff_eq_none.mp (by simpa using hin)
          cases hstep : installStep repo (installGo repo n) name
              { st with installing := name :: st.installing } with
          | mk st2 res =>
              have hres : ResInv (st2, res) :=
                hstep ▸ installStep_resInv repo (installGo repo n)
                  (fun nm s hs => ih nm s hs) name _ h1 hno1
              exact ⟨fun m => hres.1 m, fun hr => fun m => hres.2 hr m⟩

/-- Units `A → {B, C}`, `B → D`, `C → D`: `D` is reached through two
independent dependency paths. -/
def diamondRepo : Repo := fun n =>
  if n = "A" then .found "units/A.js" (ModuleDef.mk (.fn 1 (.ok (.obj []))) true ["B", "C"] [])
  else if n = "B" then .found "units/B.js" (ModuleDef.mk (.fn 2 (.ok (.obj []))) true ["D"] [])
  else if n = "C" then .found "units/C.js" (ModuleDef.mk (.fn 3 (.ok (.obj []))) true ["D"] [])
  else if n = "D" then .found "units/D.js" (ModuleDef.mk (.fn 4 (.ok (.obj []))) true [] [])
  else .resolveErr (.thrown ("no unit " ++ n))

/-- C5: `install` is idempotent — installing an already-installed unit is a
complete no-op — and within any single install run starting from a fresh
trace, every unit's factory is invoked at most once; on the diamond
dependency graph (`D` reached through `B` and through `C`), `D`'s factory
runs exactly once and `D` has exactly one entry in the installed table. -/
theorem claim_C5 :
    (∀ (repo : Repo) (fuel : Nat) (name : String) (st : MState),
      st.phase = .idle → (Table.get? st.units name).isSome = true →
      install repo (fuel + 1) name st = (st, none))
    ∧ (∀ (repo : Repo) (fuel : Nat) (name : String) (st : MState),
      st.trace = [] →
      ∀ m, countFactory m ((installGo repo fuel name st).1).trace ≤ 1)
    ∧ ((installGo diamondRepo 5 "A" {}).2 = none
      ∧ countFactory "D" ((installGo diamondRepo 5 "A" {}).1).trace = 1
      ∧ Table.get? ((installGo diamondRepo 5 "A" {}).1).units "D"
          = some (UnitRec.mk [("name", .str "D")] [] [])) := by
  refine ⟨?_, ?_, ⟨rfl, rfl, rfl⟩⟩
  · intro repo fuel name st hidle hins
    obtain ⟨u, c, l, inj, s1, s2, s3, ins, ph, tr⟩ := st
    simp only at hidle
    subst hidle
    simp [install, installGo, hins]
  · intro repo fuel name st htr m
    have h0 : FacInv st := by
      intro m'
      rw [htr]
      exact ⟨by simp [countFactory], fun h1 => by simp [countFactory] at h1⟩
    exact (installGo_resInv repo fuel name st h0).1 m

/-- C5 witness: the no-op clause on an instance that already has `u`
installed, and the at-most-once clause on the diamond host. -/
theorem claim_C5_witness :
    install diamondRepo 1 "A" { units := [("A", UnitRec.mk [] [] [])] }
      = ({ units := [("A", UnitRec.mk [] [] [])] }, none)
    ∧ countFactory "D" ((installGo diamondRepo 5 "A" {}).1).trace ≤ 1 :=
  ⟨claim_C5.1 diamondRepo 0 "A" { units := [("A", UnitRec.mk [] [] [])] } rfl rfl,
   claim_C5.2.1 diamondRepo 5 "A" {} rfl "D"⟩

end MLM
